import Mathlib

/-!
Verification of the stock-recommender candidate discovery and analysis
pipeline.  The Go source is shallowly embedded: strings become `List Char`,
`float64` becomes `ℚ` (exact arithmetic; the programs compute small sums,
products and one division, none of which hinges on rounding), wall-clock
instants become `ℚ` seconds, and channel/oracle collaborators become explicit
function parameters.  Where Go leaves an order unspecified (map iteration,
`sort.Slice` ties) the embedding is relational: a predicate characterises the
set of outputs the code can produce.
-/

namespace StockRec

/-! ## Shared string primitives (mirroring Go `strings` helpers) -/

/-- Go `strings.ToUpper`, at ASCII granularity (all symbols in play are ASCII). -/
def goUpper (s : List Char) : List Char := s.map Char.toUpper

/-- Go `strings.ToLower`, at ASCII granularity. -/
def goLower (s : List Char) : List Char := s.map Char.toLower

/-- Does `pat` occur as a prefix of `s`? (helper for suffix/contains tests). -/
def leadsWith : List Char → List Char → Bool
  | [], _ => true
  | _ :: _, [] => false
  | p :: ps, c :: cs => p == c && leadsWith ps cs

/-- Go `strings.HasSuffix`. -/
def hasSuffix (s suf : List Char) : Bool := leadsWith suf.reverse s.reverse

/-- Go `strings.TrimSuffix`: drop one trailing occurrence of `suf`, if present. -/
def goTrimSuffix (s suf : List Char) : List Char :=
  if hasSuffix s suf then s.take (s.length - suf.length) else s

/-- Go `strings.Contains` (substring test). -/
def goContains (s sub : List Char) : Bool :=
  (List.range (s.length + 1)).any (fun i => leadsWith sub (s.drop i))

/-- White space as used by `strings.TrimSpace` on the inputs in play. -/
def isGoSpace (c : Char) : Bool := c == ' ' || c == '\t' || c == '\n' || c == '\r'

/-- Go `strings.TrimSpace`. -/
def goTrimSpace (s : List Char) : List Char :=
  (s.dropWhile isGoSpace).reverse.dropWhile isGoSpace |>.reverse

/-- Fuel-driven worker for `removeAll`; the fuel only bounds the recursion
depth (one unit per character consumed) and never runs out when it starts at
the length of the string. -/
def removeAllAux (pat : List Char) : ℕ → List Char → List Char
  | 0, s => s
  | _ + 1, [] => []
  | n + 1, c :: rest =>
    if pat.length ≠ 0 ∧ leadsWith pat (c :: rest) then
      removeAllAux pat n ((c :: rest).drop pat.length)
    else
      c :: removeAllAux pat n rest

/-- Go `strings.ReplaceAll (s, pat, "")`: delete every (non-overlapping,
leftmost) occurrence of the non-empty pattern `pat` from `s`. -/
def removeAll (pat s : List Char) : List Char := removeAllAux pat s.length s

/-! ## Claim C5: symbol normalization (`screener.normalizeSymbol`)
and discovery aggregation (`analyzer.aggregateStocks`). -/

/-- `screener.normalizeSymbol`: uppercase, then strip one trailing
`.NS`, `.BO`, `.NSE`, `.BSE` (each suffix tried once, in that order). -/
def normalizeSymbol (s : List Char) : List Char :=
  let s1 := goUpper s
  let s2 := goTrimSuffix s1 ".NS".data
  let s3 := goTrimSuffix s2 ".BO".data
  let s4 := goTrimSuffix s3 ".NSE".data
  goTrimSuffix s4 ".BSE".data

/-- A stock discovered from an external source
(`analyzer.DiscoveredStock`, the fields the aggregation touches). -/
structure DStock where
  symbol : List Char
  name : List Char
  source : List Char
  mentions : ℤ
deriving DecidableEq

/-- The symbol cleaning done inline by `aggregateStocks`:
trim space, uppercase, strip one trailing `.NS`, then one trailing `.BO`
(note: unlike `normalizeSymbol`, it does not strip `.NSE`/`.BSE`). -/
def cleanKey (s : List Char) : List Char :=
  goTrimSuffix (goTrimSuffix (goUpper (goTrimSpace s)) ".NS".data) ".BO".data

/-- Update the (unique) entry keyed `key` of the aggregation map:
sum mentions, fill a blank name, concatenate source labels —
the body of the `existing, ok` branch of `aggregateStocks`. -/
def mergeInto : List DStock → List Char → DStock → List DStock
  | [], _, _ => []
  | e :: rest, key, s =>
    if e.symbol == key then
      { e with
        mentions := e.mentions + s.mentions,
        name := if s.name ≠ [] ∧ e.name = [] then s.name else e.name,
        source := e.source ++ ", ".data ++ s.source } :: rest
    else e :: mergeInto rest key s

/-- One iteration of the `aggregateStocks` loop: skip blank keys, merge into
an existing entry, or create a new one.  The Go map is modelled as an
association list in first-insertion order (Go iterates the map in an
unspecified order; every such order is a permutation of this list). -/
def insertStock (acc : List DStock) (s : DStock) : List DStock :=
  let key := cleanKey s.symbol
  if key = [] then acc
  else if acc.any (fun e => e.symbol == key) then mergeInto acc key s
  else acc ++ [{ symbol := key, name := s.name, source := s.source, mentions := s.mentions }]

/-- `analyzer.aggregateStocks`: group raw hits by cleaned symbol. -/
def aggregateStocks (stocks : List DStock) : List DStock :=
  stocks.foldl insertStock []

/-- Number of aggregated entries carrying the key `k`. -/
def countKey (l : List DStock) (k : List Char) : ℕ :=
  (l.filter (fun e => e.symbol == k)).length

/-- Total mentions recorded under key `k` in an aggregated list. -/
def keyMentions (l : List DStock) (k : List Char) : ℤ :=
  ((l.filter (fun e => e.symbol == k)).map (·.mentions)).sum

/-- Total mentions of the raw hits whose cleaned symbol is `k`. -/
def inputMentions (stocks : List DStock) (k : List Char) : ℤ :=
  ((stocks.filter (fun s => cleanKey s.symbol == k)).map (·.mentions)).sum

theorem charOfNat_toNat (n : Nat) (h : n < 55296) : (Char.ofNat n).toNat = n := by
  have hv : n.isValidChar := Or.inl h
  rw [Char.ofNat, dif_pos hv]
  simp [Char.ofNatAux, Char.toNat, UInt32.ofNat', UInt32.toNat]

theorem toUpper_idem (c : Char) : c.toUpper.toUpper = c.toUpper := by
  simp only [Char.toUpper]
  split
  · next h =>
    have h2 : (Char.ofNat (c.toNat - 32)).toNat = c.toNat - 32 :=
      charOfNat_toNat _ (by omega)
    rw [if_neg]
    rw [h2]
    omega
  · next h => rfl

theorem goUpper_idem (s : List Char) : goUpper (goUpper s) = goUpper s := by
  simp [goUpper, List.map_map, Function.comp, toUpper_idem]

theorem goTrimSuffix_eq_take (s suf : List Char) : ∃ n, goTrimSuffix s suf = s.take n := by
  unfold goTrimSuffix
  split
  · exact ⟨s.length - suf.length, rfl⟩
  · exact ⟨s.length, (List.take_length s).symm⟩

theorem normalizeSymbol_eq_take (x : List Char) :
    ∃ n, normalizeSymbol x = (goUpper x).take n := by
  unfold normalizeSymbol
  obtain ⟨n1, h1⟩ := goTrimSuffix_eq_take (goUpper x) ".NS".data
  obtain ⟨n2, h2⟩ := goTrimSuffix_eq_take (goTrimSuffix (goUpper x) ".NS".data) ".BO".data
  obtain ⟨n3, h3⟩ := goTrimSuffix_eq_take (goTrimSuffix (goTrimSuffix (goUpper x) ".NS".data) ".BO".data) ".NSE".data
  obtain ⟨n4, h4⟩ := goTrimSuffix_eq_take (goTrimSuffix (goTrimSuffix (goTrimSuffix (goUpper x) ".NS".data) ".BO".data) ".NSE".data) ".BSE".data
  refine ⟨n4 ⊓ n3 ⊓ n2 ⊓ n1, ?_⟩
  rw [h4, h3, h2, h1, List.take_take, List.take_take, List.take_take]

theorem goUpper_normalizeSymbol (x : List Char) :
    goUpper (normalizeSymbol x) = normalizeSymbol x := by
  obtain ⟨n, hn⟩ := normalizeSymbol_eq_take x
  rw [hn]
  show goUpper (List.take n (goUpper x)) = _
  rw [goUpper, List.map_take, ← goUpper, goUpper_idem]

theorem goTrimSuffix_of_not_suffix (s suf : List Char) (h : hasSuffix s suf = false) :
    goTrimSuffix s suf = s := by
  simp [goTrimSuffix, h]

theorem mergeInto_countKey (l : List DStock) (key : List Char) (s : DStock) (k : List Char) :
    countKey (mergeInto l key s) k = countKey l k := by
  induction l with
  | nil => rfl
  | cons e rest ih =>
    simp only [countKey] at ih ⊢
    by_cases h : e.symbol = key
    · simp only [mergeInto, h, beq_self_eq_true, if_true, List.filter_cons]
      by_cases hk : key = k <;> simp [hk]
    · simp only [mergeInto, beq_iff_eq, if_neg h, List.filter_cons]
      by_cases hk : e.symbol = k <;> simp [hk, ih]

theorem mergeInto_keyMentions (l : List DStock) (key : List Char) (s : DStock) (k : List Char)
    (hex : l.any (fun e => e.symbol == key) = true) :
    keyMentions (mergeInto l key s) k
      = keyMentions l k + (if key = k then s.mentions else 0) := by
  induction l with
  | nil => simp at hex
  | cons e rest ih =>
    simp only [keyMentions] at ih ⊢
    by_cases h : e.symbol = key
    · simp only [mergeInto, h, beq_self_eq_true, if_true, List.filter_cons]
      by_cases hk : key = k
      · simp [hk]
        ring
      · simp [hk]
    · have hex2 : (rest.any fun e => e.symbol == key) = true := by
        simp only [List.any_cons, Bool.or_eq_true, beq_iff_eq] at hex
        exact hex.resolve_left h
      simp only [mergeInto, beq_iff_eq, if_neg h, List.filter_cons]
      by_cases hk : e.symbol = k
      · simp [hk, ih hex2]
        ring
      · simp [hk, ih hex2]

theorem insertStock_countKey (acc : List DStock) (s : DStock) (k : List Char)
    (hk : k ≠ []) (h1 : countKey acc k ≤ 1) :
    countKey (insertStock acc s) k ≤ 1 := by
  unfold insertStock
  by_cases h0 : cleanKey s.symbol = []
  · simpa [h0] using h1
  · simp only [if_neg h0]
    by_cases hex : (acc.any fun e => e.symbol == cleanKey s.symbol) = true
    · simpa [hex, mergeInto_countKey] using h1
    · simp only [Bool.not_eq_true] at hex
      simp only [hex, Bool.false_eq_true, if_neg, if_false]
      by_cases hkk : cleanKey s.symbol = k
      · subst hkk
        rw [List.any_eq_false] at hex
        have hnil : List.filter (fun e => e.symbol == cleanKey s.symbol) acc = [] := by
          rw [List.filter_eq_nil_iff]
          intro a ha
          simpa using hex a ha
        simp [countKey, List.filter_append, hnil]
      · simpa [countKey, List.filter_append, hkk] using h1

theorem insertStock_keyMentions (acc : List DStock) (s : DStock) (k : List Char)
    (hk : k ≠ []) :
    keyMentions (insertStock acc s) k
      = keyMentions acc k + (if cleanKey s.symbol = k then s.mentions else 0) := by
  unfold insertStock
  by_cases h0 : cleanKey s.symbol = []
  · have : ¬ cleanKey s.symbol = k := by
      rw [h0]
      exact fun h => hk h.symm
    rw [if_pos h0, if_neg this]
    ring
  · simp only [if_neg h0]
    by_cases hex : (acc.any fun e => e.symbol == cleanKey s.symbol) = true
    · simp [hex, mergeInto_keyMentions acc (cleanKey s.symbol) s k hex]
    · simp only [Bool.not_eq_true] at hex
      simp only [hex, Bool.false_eq_true, if_false]
      by_cases hkk : cleanKey s.symbol = k <;>
        simp [keyMentions, List.filter_append, List.filter_cons, hkk]

theorem foldl_insertStock (stocks : List DStock) :
    ∀ acc, (∀ k, k ≠ [] → countKey acc k ≤ 1) →
      ∀ k, k ≠ [] →
        countKey (stocks.foldl insertStock acc) k ≤ 1 ∧
        keyMentions (stocks.foldl insertStock acc) k
          = keyMentions acc k + inputMentions stocks k := by
  induction stocks with
  | nil =>
    intro acc hinv k hk
    exact ⟨hinv k hk, by simp [inputMentions]⟩
  | cons s rest ih =>
    intro acc hinv k hk
    have hinv2 : ∀ k2, k2 ≠ [] → countKey (insertStock acc s) k2 ≤ 1 :=
      fun k2 hk2 => insertStock_countKey acc s k2 hk2 (hinv k2 hk2)
    obtain ⟨hc, hm⟩ := ih (insertStock acc s) hinv2 k hk
    refine ⟨by simpa using hc, ?_⟩
    simp only [List.foldl_cons] at hm ⊢
    rw [hm, insertStock_keyMentions acc s k hk]
    have : inputMentions (s :: rest) k
        = (if cleanKey s.symbol = k then s.mentions else 0) + inputMentions rest k := by
      simp only [inputMentions, List.filter_cons]
      by_cases hkk : cleanKey s.symbol = k <;> simp [hkk]
    rw [this]
    ring

/-- Claim C5, counterexample.  `normalizeSymbol` strips at most one suffix per
application, so it is not idempotent on a symbol carrying stacked suffixes:
`normalize("X.NS.NS") = "X.NS"` but `normalize(normalize("X.NS.NS")) = "X"`.
And `aggregateStocks` trims only `.NS`/`.BO`, so the raw symbols `"TCS.NSE"`
and `"TCS"`, which normalize equally under `normalizeSymbol`, do not merge. -/
theorem c5_counterexample :
    (normalizeSymbol (normalizeSymbol "X.NS.NS".data) ≠ normalizeSymbol "X.NS.NS".data) ∧
    normalizeSymbol "TCS.NSE".data = normalizeSymbol "TCS".data ∧
    (aggregateStocks
        [⟨"TCS.NSE".data, [], [], 1⟩, ⟨"TCS".data, [], [], 1⟩]).length = 2 := by
  decide

/-- Claim C5, amended: aggregation merges all raw symbols with one common
cleaned key (uppercase, space-trimmed, one trailing `.NS`/`.BO` stripped) into
a single candidate whose mentions are the sum of the merged mention counts;
and `normalizeSymbol` is idempotent on every input whose normalized form does
not itself end in one of the four exchange suffixes. -/
theorem c5_merge_and_conditional_idempotence :
    (∀ stocks k, k ≠ [] →
       countKey (aggregateStocks stocks) k ≤ 1 ∧
       keyMentions (aggregateStocks stocks) k = inputMentions stocks k) ∧
    (∀ x, hasSuffix (normalizeSymbol x) ".NS".data = false →
          hasSuffix (normalizeSymbol x) ".BO".data = false →
          hasSuffix (normalizeSymbol x) ".NSE".data = false →
          hasSuffix (normalizeSymbol x) ".BSE".data = false →
          normalizeSymbol (normalizeSymbol x) = normalizeSymbol x) := by
  constructor
  · intro stocks k hk
    have h := foldl_insertStock stocks [] (by intro k2 _; simp [countKey]) k hk
    constructor
    · exact (by simpa [aggregateStocks] using h.1)
    · have h2 := h.2
      simp only [keyMentions, List.filter_nil, List.map_nil, List.sum_nil, zero_add] at h2
      simpa [aggregateStocks, keyMentions] using h2
  · intro x h1 h2 h3 h4
    have hupper := goUpper_normalizeSymbol x
    set y := normalizeSymbol x with hy
    show normalizeSymbol y = y
    simp only [normalizeSymbol]
    rw [hupper, goTrimSuffix_of_not_suffix _ _ h1, goTrimSuffix_of_not_suffix _ _ h2,
      goTrimSuffix_of_not_suffix _ _ h3, goTrimSuffix_of_not_suffix _ _ h4]

/-- Witness for the amended C5 theorem at concrete input: `"RELIANCE.NS"` (1
mention) and `" reliance "` (2 mentions) merge into one candidate keyed
`"RELIANCE"` with 3 mentions, and `normalizeSymbol` is idempotent on
`"ABC.NS"`. -/
theorem c5_merge_witness :
    countKey (aggregateStocks
        [⟨"RELIANCE.NS".data, [], [], 1⟩, ⟨" reliance ".data, [], [], 2⟩]) "RELIANCE".data ≤ 1 ∧
    keyMentions (aggregateStocks
        [⟨"RELIANCE.NS".data, [], [], 1⟩, ⟨" reliance ".data, [], [], 2⟩]) "RELIANCE".data = 3 ∧
    normalizeSymbol (normalizeSymbol "ABC.NS".data) = normalizeSymbol "ABC.NS".data := by
  have h := c5_merge_and_conditional_idempotence
  refine ⟨(h.1 _ _ (by decide)).1, ?_, ?_⟩
  · rw [(h.1 [⟨"RELIANCE.NS".data, [], [], 1⟩, ⟨" reliance ".data, [], [], 2⟩]
        "RELIANCE".data (by decide)).2]
    decide
  · exact h.2 _ (by decide) (by decide) (by decide) (by decide)

/-! ## Claim C8: the numeric text parsers (`screener.parseNumber`,
`screener.parseCSVNumber`).  `strconv.ParseFloat` is modelled on the finite
decimal/exponent grammar plus the special forms it recognizes — an optionally
signed, case-insensitive `inf`/`infinity` and an unsigned `nan` — returning a
`GoFloat` (a finite exact rational, ±Inf or NaN).  Go's hexadecimal-float and
underscored literal forms all contain an ASCII digit, so they lie outside
every digit-free statement proved below; an out-of-range decimal makes
`ParseFloat` report `ErrRange`, which both call sites turn into 0, and the
exact-rational embedding idealizes the rounding of in-range decimals. -/

/-- Reducible rational addition (Go `+` on float64; exact): the Batteries
`Rat.add` is `@[irreducible]`, so the embedding uses `mkRat` forms that the
kernel can evaluate, with bridge lemmas equating them to `+`, `-`, `*`, `/`. -/
def qadd (a b : ℚ) : ℚ := mkRat (a.num * b.den + b.num * a.den) (a.den * b.den)

/-- Reducible rational subtraction. -/
def qsub (a b : ℚ) : ℚ := mkRat (a.num * b.den - b.num * a.den) (a.den * b.den)

/-- Reducible rational multiplication. -/
def qmul (a b : ℚ) : ℚ := mkRat (a.num * b.num) (a.den * b.den)

/-- Reducible rational division (callers only divide by nonzero values). -/
def qdiv (a b : ℚ) : ℚ := qmul a (Rat.divInt b.den b.num)

theorem qadd_eq (a b : ℚ) : qadd a b = a + b := (Rat.add_def' a b).symm

theorem qsub_eq (a b : ℚ) : qsub a b = a - b := (Rat.sub_def' a b).symm

theorem qmul_eq (a b : ℚ) : qmul a b = a * b := by
  rw [qmul, Rat.mul_def, Rat.normalize_eq_mkRat]

theorem qdiv_eq (a b : ℚ) : qdiv a b = a / b := by
  rw [qdiv, qmul_eq, ← Rat.inv_def, div_eq_mul_inv]
  rfl

/-- Value of a digit run, most significant first. -/
def digitsVal (ds : List Char) : ℕ := ds.foldl (fun a c => 10 * a + (c.toNat - 48)) 0

/-- The embedding of a machine integer as an exact rational (`float64(n)`:
all integers in play are far below 2^53, so the conversion is exact). -/
def qOfNat (n : ℕ) : ℚ := Rat.divInt (Int.ofNat n) 1

theorem qOfNat_eq (n : ℕ) : qOfNat n = (n : ℚ) := by
  rw [qOfNat, Rat.divInt_one]
  rfl

/-- Consume one optional leading sign; returns (negative?, rest). -/
def parseSign (s : List Char) : Bool × List Char :=
  if s.head? = some '-' then (true, s.tail)
  else if s.head? = some '+' then (false, s.tail)
  else (false, s)

/-- The value domain of `strconv.ParseFloat`: a finite `float64` (kept as an
exact rational) or one of the special values `+Inf`, `-Inf`, `NaN`. -/
inductive GoFloat where
  | finite (q : ℚ)
  | posInf
  | negInf
  | nan
deriving DecidableEq

/-- `value * multiplier` in the parsers: multiplying a `float64` by a
positive finite multiplier scales a finite value exactly and keeps `±Inf`
and `NaN` fixed. -/
def GoFloat.scale : GoFloat → ℚ → GoFloat
  | .finite q, m => .finite (qmul q m)
  | .posInf, _ => .posInf
  | .negInf, _ => .negInf
  | .nan, _ => .nan

/-- The special-value recognition of `strconv.ParseFloat` (`strconv/atof.go`,
`special`, with `ParseFloat`'s whole-string check): the entire input is,
case-insensitively, an optionally signed `inf` or `infinity`, or an unsigned
`nan` (the sign case of Go's `switch` falls through to the infinity check
only, so a signed `nan` is a syntax error). -/
def specialFloat? (s : List Char) : Option GoFloat :=
  match s with
  | [] => none
  | c :: r =>
    if c = '+' then
      if goLower r = "inf".data ∨ goLower r = "infinity".data then some GoFloat.posInf
      else none
    else if c = '-' then
      if goLower r = "inf".data ∨ goLower r = "infinity".data then some GoFloat.negInf
      else none
    else if goLower (c :: r) = "inf".data ∨ goLower (c :: r) = "infinity".data then
      some GoFloat.posInf
    else if goLower (c :: r) = "nan".data then some GoFloat.nan
    else none

/-- Model of Go `strconv.ParseFloat` on finite decimal notation with an
optional exponent: `[+-]? digits* (. digits*)? ([eE] [+-]? digits+)?`, at
least one mantissa digit, whole string consumed.  Returns the exact rational. -/
def parseFloatNum? (s : List Char) : Option ℚ :=
  let p := parseSign s
  let ds1 := p.2.takeWhile Char.isDigit
  let r1 := p.2.dropWhile Char.isDigit
  let q : List Char × List Char :=
    if r1.head? = some '.' then (r1.tail.takeWhile Char.isDigit, r1.tail.dropWhile Char.isDigit)
    else ([], r1)
  if ds1.length + q.1.length = 0 then none
  else
    let mant : ℚ := Rat.divInt (Int.ofNat (digitsVal (ds1 ++ q.1))) (Int.ofNat (10 ^ q.1.length))
    let signed : ℚ := if p.1 then -mant else mant
    match q.2 with
    | [] => some signed
    | e :: r3 =>
      if e = 'e' ∨ e = 'E' then
        let ep := parseSign r3
        let eds := ep.2.takeWhile Char.isDigit
        let r5 := ep.2.dropWhile Char.isDigit
        if eds.length = 0 ∨ r5 ≠ [] then none
        else if ep.1 then some (qmul signed (Rat.divInt 1 (Int.ofNat (10 ^ digitsVal eds))))
        else some (qmul signed (Rat.divInt (Int.ofNat (10 ^ digitsVal eds)) 1))
      else none

/-- Go `strconv.ParseFloat`: the special forms first (they are disjoint from
the decimal grammar, which requires a digit), then the decimal grammar. -/
def goParseFloat? (s : List Char) : Option GoFloat :=
  match specialFloat? s with
  | some g => some g
  | none => (parseFloatNum? s).map GoFloat.finite

/-- Greedy match of the regex body `[0-9]*\.?[0-9]+` at the head of `s`
(with the backtracking-first semantics of Go `regexp.FindString`). -/
def numBodyAt (s : List Char) : Option (List Char) :=
  let ds1 := s.takeWhile Char.isDigit
  let r1 := s.dropWhile Char.isDigit
  if r1.head? = some '.' then
    let ds2 := r1.tail.takeWhile Char.isDigit
    if ds2 ≠ [] then some (ds1 ++ '.' :: ds2)
    else if ds1 ≠ [] then some ds1 else none
  else if ds1 ≠ [] then some ds1 else none

/-- Match of `[-+]?[0-9]*\.?[0-9]+` anchored at the head of `s`. -/
def numMatchAt (s : List Char) : Option (List Char) :=
  match s with
  | [] => none
  | c :: r =>
    if c = '-' ∨ c = '+' then (numBodyAt r).map (fun m => c :: m)
    else numBodyAt s

/-- Go `regexp.MustCompile("[-+]?[0-9]*\\.?[0-9]+").FindString`: the leftmost
match, or `none` (Go: empty string) when there is none. -/
def findFirstNumber : List Char → Option (List Char)
  | [] => none
  | c :: r =>
    match numMatchAt (c :: r) with
    | some m => some m
    | none => findFirstNumber r

/-- The `K`/`L`/`M`/`B` multiplier block of `parseNumber` (note: no `Cr`
multiplier — `Cr` was deleted from the text beforehand). -/
def kSuffixMult (s : List Char) : ℚ × List Char :=
  if hasSuffix s "K".data then (1000, goTrimSuffix s "K".data)
  else if hasSuffix s "L".data then (100000, goTrimSuffix s "L".data)
  else if hasSuffix s "M".data then (1000000, goTrimSuffix s "M".data)
  else if hasSuffix s "B".data then (1000000000, goTrimSuffix s "B".data)
  else (1, s)

/-- `screener.parseNumber`: strip `₹`, `,`, `%`, `Cr.`, `Cr`, trim space,
read an optional `K`/`L`/`M`/`B` multiplier, then extract the first number by
regex and feed it to `ParseFloat`; any failure yields 0.  (The regex match
always contains a digit, so `ParseFloat` only ever sees the decimal grammar
here and the result is always finite.) -/
def parseNumber (sIn : List Char) : GoFloat :=
  let s0 := removeAll "₹".data sIn
  let s1 := removeAll ",".data s0
  let s2 := removeAll "%".data s1
  let s3 := removeAll "Cr.".data s2
  let s4 := removeAll "Cr".data s3
  let s5 := goTrimSpace s4
  let p := kSuffixMult s5
  match findFirstNumber p.2 with
  | none => GoFloat.finite 0
  | some m =>
    match goParseFloat? m with
    | none => GoFloat.finite 0
    | some v => v.scale p.1

/-- The `Cr`/`L`/`K` multiplier block of `parseCSVNumber` (case-insensitive
suffixes; `Cr` means 1 crore = 10^7). -/
def csvSuffixMult (s : List Char) : ℚ × List Char :=
  if hasSuffix s "Cr".data || hasSuffix s "cr".data then
    (10000000, goTrimSuffix (goTrimSuffix s "Cr".data) "cr".data)
  else if hasSuffix s "L".data || hasSuffix s "l".data then
    (100000, goTrimSuffix (goTrimSuffix s "L".data) "l".data)
  else if hasSuffix s "K".data || hasSuffix s "k".data then
    (1000, goTrimSuffix (goTrimSuffix s "K".data) "k".data)
  else (1, s)

/-- The cleaning chain of `parseCSVNumber` (strip `,`, `₹`, `%`, spaces, trim,
read the multiplier suffix): the multiplier and the string handed to
`strconv.ParseFloat`. -/
def csvCleanedPair (sIn : List Char) : ℚ × List Char :=
  csvSuffixMult (goTrimSpace (removeAll " ".data (removeAll "%".data
    (removeAll "₹".data (removeAll ",".data sIn)))))

/-- The string `parseCSVNumber` hands to `strconv.ParseFloat`. -/
def csvCleaned (sIn : List Char) : List Char := (csvCleanedPair sIn).2

/-- `screener.parseCSVNumber`: empty/`-`/`N/A`/`NA` map to 0; otherwise strip
`,`, `₹`, `%`, spaces, read an optional `Cr`/`L`/`K` multiplier and parse the
rest with `strconv.ParseFloat`, yielding 0 on parse failure — but `±Inf`/`NaN`
for the special forms `ParseFloat` accepts, times the multiplier. -/
def parseCSVNumber (sIn : List Char) : GoFloat :=
  if sIn = [] ∨ sIn = "-".data ∨ sIn = "N/A".data ∨ sIn = "NA".data then GoFloat.finite 0
  else
    match goParseFloat? (csvCleaned sIn) with
    | none => GoFloat.finite 0
    | some v => v.scale (csvCleanedPair sIn).1

/-- A string containing no ASCII digit (the shape of every missing or
malformed numeric cell in play). -/
def digitFree (s : List Char) : Prop := ∀ c ∈ s, c.isDigit = false

instance (s : List Char) : Decidable (digitFree s) := by
  unfold digitFree
  infer_instance

theorem removeAllAux_subset (pat : List Char) : ∀ n s, removeAllAux pat n s ⊆ s := by
  intro n
  induction n with
  | zero => intro s; exact fun a ha => ha
  | succ m ih =>
    intro s
    match s with
    | [] => exact fun a ha => ha
    | c :: rest =>
      simp only [removeAllAux]
      split
      · intro a ha
        exact List.drop_subset _ _ (ih _ ha)
      · intro a ha
        cases ha with
        | head => exact List.mem_cons_self c rest
        | tail _ h2 => exact List.mem_cons_of_mem c (ih rest h2)

theorem removeAll_subset (pat s : List Char) : removeAll pat s ⊆ s :=
  removeAllAux_subset pat s.length s

theorem goTrimSpace_subset (s : List Char) : goTrimSpace s ⊆ s := by
  intro a ha
  simp only [goTrimSpace, List.mem_reverse] at ha
  have h1 := List.dropWhile_subset _ ha
  rw [List.mem_reverse] at h1
  exact List.dropWhile_subset _ h1

theorem goTrimSuffix_subset (s suf : List Char) : goTrimSuffix s suf ⊆ s := by
  unfold goTrimSuffix
  split
  · exact List.take_subset _ _
  · exact fun a ha => ha

theorem kSuffixMult_subset (s : List Char) : (kSuffixMult s).2 ⊆ s := by
  unfold kSuffixMult
  split
  · exact goTrimSuffix_subset _ _
  · split
    · exact goTrimSuffix_subset _ _
    · split
      · exact goTrimSuffix_subset _ _
      · split
        · exact goTrimSuffix_subset _ _
        · exact fun a ha => ha

theorem csvSuffixMult_subset (s : List Char) : (csvSuffixMult s).2 ⊆ s := by
  unfold csvSuffixMult
  split
  · exact fun a ha => goTrimSuffix_subset _ _ (goTrimSuffix_subset _ _ ha)
  · split
    · exact fun a ha => goTrimSuffix_subset _ _ (goTrimSuffix_subset _ _ ha)
    · split
      · exact fun a ha => goTrimSuffix_subset _ _ (goTrimSuffix_subset _ _ ha)
      · exact fun a ha => ha

theorem digitFree_mono {s t : List Char} (h : t ⊆ s) (hs : digitFree s) : digitFree t :=
  fun c hc => hs c (h hc)

theorem digitFree_tail {s : List Char} (h : digitFree s) : digitFree s.tail :=
  fun a ha => h a (List.mem_of_mem_tail ha)

theorem takeWhile_digit_nil {s : List Char} (h : digitFree s) :
    s.takeWhile Char.isDigit = [] := by
  match s with
  | [] => rfl
  | c :: t => simp [List.takeWhile, h c (List.mem_cons_self c t)]

theorem dropWhile_digit_id {s : List Char} (h : digitFree s) :
    s.dropWhile Char.isDigit = s := by
  match s with
  | [] => rfl
  | c :: t => simp [List.dropWhile, h c (List.mem_cons_self c t)]

theorem parseSign_digitFree {s : List Char} (h : digitFree s) :
    digitFree (parseSign s).2 := by
  unfold parseSign
  split
  · exact digitFree_tail h
  · split
    · exact digitFree_tail h
    · exact h

theorem numBodyAt_digitFree {s : List Char} (h : digitFree s) : numBodyAt s = none := by
  simp only [numBodyAt]
  rw [takeWhile_digit_nil h, dropWhile_digit_id h, takeWhile_digit_nil (digitFree_tail h)]
  simp

theorem numMatchAt_digitFree {s : List Char} (h : digitFree s) : numMatchAt s = none := by
  match s, h with
  | [], _ => rfl
  | c :: r, h =>
    have hr : digitFree r := fun a ha => h a (List.mem_cons_of_mem c ha)
    unfold numMatchAt
    by_cases hc : c = '-' ∨ c = '+'
    · simp [hc, numBodyAt_digitFree hr]
    · simp [hc, numBodyAt_digitFree h]

theorem findFirstNumber_digitFree {s : List Char} (h : digitFree s) :
    findFirstNumber s = none := by
  induction s with
  | nil => rfl
  | cons c r ih =>
    have hr : digitFree r := fun a ha => h a (List.mem_cons_of_mem c ha)
    simp [findFirstNumber, numMatchAt_digitFree h, ih hr]

theorem parseFloatNum_digitFree {s : List Char} (h : digitFree s) :
    parseFloatNum? s = none := by
  have h2 : digitFree (parseSign s).2 := parseSign_digitFree h
  by_cases hd : (parseSign s).2.head? = some '.'
  · simp [parseFloatNum?, takeWhile_digit_nil h2, dropWhile_digit_id h2, hd,
      takeWhile_digit_nil (digitFree_tail h2)]
  · simp [parseFloatNum?, takeWhile_digit_nil h2, dropWhile_digit_id h2, hd]

theorem goParseFloat_digitFree {s : List Char} (h : digitFree s)
    (hs : specialFloat? s = none) : goParseFloat? s = none := by
  simp [goParseFloat?, hs, parseFloatNum_digitFree h]

theorem specialFloat_scale {s : List Char} {g : GoFloat}
    (h : specialFloat? s = some g) (m : ℚ) : g.scale m = g := by
  match s with
  | [] => simp [specialFloat?] at h
  | c :: r =>
    simp only [specialFloat?] at h
    split_ifs at h <;> simp only [Option.some.injEq] at h <;> subst h <;> rfl

theorem parseNumber_digitFree {s : List Char} (h : digitFree s) :
    parseNumber s = GoFloat.finite 0 := by
  have h5 : digitFree ((kSuffixMult (goTrimSpace (removeAll "Cr".data (removeAll "Cr.".data
      (removeAll "%".data (removeAll ",".data (removeAll "₹".data s))))))).2) := by
    refine digitFree_mono ?_ h
    intro a ha
    exact removeAll_subset _ _ (removeAll_subset _ _ (removeAll_subset _ _ (removeAll_subset _ _
      (removeAll_subset _ _ (goTrimSpace_subset _ (kSuffixMult_subset _ ha))))))
  simp [parseNumber, findFirstNumber_digitFree h5]

theorem csvCleaned_digitFree {s : List Char} (h : digitFree s) :
    digitFree (csvCleaned s) := by
  refine digitFree_mono ?_ h
  intro a ha
  exact removeAll_subset _ _ (removeAll_subset _ _ (removeAll_subset _ _
    (removeAll_subset _ _ (goTrimSpace_subset _ (csvSuffixMult_subset _ ha)))))

theorem parseCSVNumber_digitFree {s : List Char} (h : digitFree s) :
    parseCSVNumber s = (specialFloat? (csvCleaned s)).getD (GoFloat.finite 0) := by
  unfold parseCSVNumber
  split
  · next he =>
    rcases he with h1 | h1 | h1 | h1 <;> subst h1 <;> decide
  · have h5 : digitFree (csvCleaned s) := csvCleaned_digitFree h
    cases hsp : specialFloat? (csvCleaned s) with
    | none => simp [goParseFloat_digitFree h5 hsp, hsp]
    | some g =>
      have hg : goParseFloat? (csvCleaned s) = some g := by
        simp [goParseFloat?, hsp]
      simp [hg, hsp, specialFloat_scale hsp]

/-- Claim C8, counterexample.  The scrape-page parser `parseNumber` deletes
the `Cr` marker without applying any multiplier, so it maps `"₹1,234.5 Cr"`
to `1234.5` (= 2469/2), not to `12345000000` as the claim states for "the
numeric parser"; only the CSV parser applies the crore multiplier.  And the
CSV parser does not map every missing or malformed value to 0: the digit-free
cell `"inf"` passes `strconv.ParseFloat`'s special-value recognition and
yields `+Inf`. -/
theorem c8_counterexample :
    parseNumber "₹1,234.5 Cr".data = GoFloat.finite (mkRat 2469 2) ∧
    parseNumber "₹1,234.5 Cr".data ≠ GoFloat.finite 12345000000 ∧
    parseCSVNumber "inf".data = GoFloat.posInf ∧
    parseCSVNumber "inf".data ≠ GoFloat.finite 0 := by
  decide

/-- Claim C8, amended: `parseCSVNumber` maps `"₹1,234.5 Cr"` to `12345000000`
(crore multiplier 10^7), `"N/A"` to `0` and `"45%"` to `45`; `parseNumber`
maps `"₹1,234.5 Cr"` to `1234.5` (it strips the `Cr` marker without a
multiplier and handles only `K`/`L`/`M`/`B`), `"N/A"` to `0` and `"45%"` to
`45`.  For digit-free (missing or malformed) values, `parseNumber` always
yields 0 — its regex extraction requires a digit — while `parseCSVNumber`
yields 0 except when the cleaned, multiplier-stripped cell is one of the
special forms `strconv.ParseFloat` accepts (an optionally signed,
case-insensitive `inf`/`infinity`, or an unsigned `nan`), in which case it
yields `±Inf`/`NaN` instead: e.g. `"inf"` gives `+Inf` and `"NaN"` gives
`NaN`, whereas `parseNumber` maps both to 0. -/
theorem c8_parsers :
    parseCSVNumber "₹1,234.5 Cr".data = GoFloat.finite 12345000000 ∧
    parseCSVNumber "N/A".data = GoFloat.finite 0 ∧
    parseCSVNumber "45%".data = GoFloat.finite 45 ∧
    parseNumber "₹1,234.5 Cr".data = GoFloat.finite (mkRat 2469 2) ∧
    parseNumber "N/A".data = GoFloat.finite 0 ∧
    parseNumber "45%".data = GoFloat.finite 45 ∧
    parseCSVNumber "inf".data = GoFloat.posInf ∧
    parseCSVNumber "-Infinity".data = GoFloat.negInf ∧
    parseCSVNumber "NaN".data = GoFloat.nan ∧
    parseNumber "inf".data = GoFloat.finite 0 ∧
    parseNumber "NaN".data = GoFloat.finite 0 ∧
    (∀ s, digitFree s → parseNumber s = GoFloat.finite 0) ∧
    (∀ s, digitFree s →
      parseCSVNumber s = (specialFloat? (csvCleaned s)).getD (GoFloat.finite 0)) :=
  ⟨by decide, by decide, by decide, by decide, by decide, by decide, by decide,
   by decide, by decide, by decide, by decide,
   fun _ h => parseNumber_digitFree h,
   fun _ h => parseCSVNumber_digitFree h⟩

/-- Witness for the amended C8 theorem: the malformed cell `"n.a."` parses to
0 under both parsers (its cleaned form is not special), while the digit-free
cell `"inf"` is special and the CSV parser yields `+Inf` for it. -/
theorem c8_parsers_witness :
    parseNumber "n.a.".data = GoFloat.finite 0 ∧
    parseCSVNumber "n.a.".data
      = (specialFloat? (csvCleaned "n.a.".data)).getD (GoFloat.finite 0) ∧
    parseCSVNumber "inf".data
      = (specialFloat? (csvCleaned "inf".data)).getD (GoFloat.finite 0) :=
  ⟨c8_parsers.2.2.2.2.2.2.2.2.2.2.2.1 "n.a.".data (by decide),
   c8_parsers.2.2.2.2.2.2.2.2.2.2.2.2 "n.a.".data (by decide),
   c8_parsers.2.2.2.2.2.2.2.2.2.2.2.2 "inf".data (by decide)⟩

/-! ## Claims C3 and C4: the keyword sentiment engine (`sentiment.Analyze`).
Dictionary weights are tenths, written `q10 n` = `n/10` (a reducible form of
the Go float literals 0.1..2.0, which are exact in both float64 and ℚ). -/

/-- A dictionary weight in tenths: `q10 9` embeds the Go literal `0.9`. -/
def q10 (n : ℤ) : ℚ := mkRat n 10

/-- The `getBullishDictionary` map. -/
def bullishWords : List (List Char × ℚ) := [
  ("surge".data, q10 10),
  ("surges".data, q10 10),
  ("surging".data, q10 10),
  ("soar".data, q10 10),
  ("soars".data, q10 10),
  ("soaring".data, q10 10),
  ("rally".data, q10 9),
  ("rallies".data, q10 9),
  ("rallying".data, q10 9),
  ("boom".data, q10 9),
  ("booming".data, q10 9),
  ("skyrocket".data, q10 10),
  ("skyrockets".data, q10 10),
  ("breakthrough".data, q10 9),
  ("breakout".data, q10 8),
  ("gain".data, q10 7),
  ("gains".data, q10 7),
  ("gaining".data, q10 7),
  ("rise".data, q10 6),
  ("rises".data, q10 6),
  ("rising".data, q10 6),
  ("up".data, q10 4),
  ("higher".data, q10 5),
  ("high".data, q10 4),
  ("increase".data, q10 6),
  ("increases".data, q10 6),
  ("increasing".data, q10 6),
  ("growth".data, q10 7),
  ("growing".data, q10 7),
  ("grow".data, q10 6),
  ("advance".data, q10 6),
  ("advances".data, q10 6),
  ("advancing".data, q10 6),
  ("climb".data, q10 6),
  ("climbs".data, q10 6),
  ("climbing".data, q10 6),
  ("jump".data, q10 7),
  ("jumps".data, q10 7),
  ("jumping".data, q10 7),
  ("recover".data, q10 6),
  ("recovers".data, q10 6),
  ("recovery".data, q10 7),
  ("rebound".data, q10 6),
  ("rebounds".data, q10 6),
  ("rebounding".data, q10 6),
  ("bullish".data, q10 9),
  ("optimistic".data, q10 8),
  ("optimism".data, q10 8),
  ("positive".data, q10 6),
  ("upbeat".data, q10 7),
  ("confident".data, q10 6),
  ("confidence".data, q10 6),
  ("strong".data, q10 6),
  ("strength".data, q10 6),
  ("robust".data, q10 7),
  ("solid".data, q10 5),
  ("healthy".data, q10 5),
  ("outperform".data, q10 8),
  ("outperforms".data, q10 8),
  ("beat".data, q10 6),
  ("beats".data, q10 6),
  ("beating".data, q10 6),
  ("exceed".data, q10 7),
  ("exceeds".data, q10 7),
  ("exceeding".data, q10 7),
  ("upgrade".data, q10 8),
  ("upgrades".data, q10 8),
  ("upgraded".data, q10 8),
  ("buy".data, q10 7),
  ("accumulate".data, q10 7),
  ("profit".data, q10 7),
  ("profits".data, q10 7),
  ("profitable".data, q10 7),
  ("earnings".data, q10 5),
  ("revenue".data, q10 4),
  ("dividend".data, q10 5),
  ("expansion".data, q10 6),
  ("expand".data, q10 6),
  ("expands".data, q10 6),
  ("expanding".data, q10 6),
  ("nifty".data, q10 3),
  ("sensex".data, q10 3),
  ("fii".data, q10 3),
  ("dii".data, q10 3),
  ("multibagger".data, q10 9)]

/-- The `getBearishDictionary` map. -/
def bearishWords : List (List Char × ℚ) := [
  ("crash".data, q10 10),
  ("crashes".data, q10 10),
  ("crashing".data, q10 10),
  ("plunge".data, q10 10),
  ("plunges".data, q10 10),
  ("plunging".data, q10 10),
  ("collapse".data, q10 10),
  ("collapses".data, q10 10),
  ("collapsing".data, q10 10),
  ("tank".data, q10 9),
  ("tanks".data, q10 9),
  ("tanking".data, q10 9),
  ("tumble".data, q10 9),
  ("tumbles".data, q10 9),
  ("tumbling".data, q10 9),
  ("freefall".data, q10 10),
  ("fall".data, q10 7),
  ("falls".data, q10 7),
  ("falling".data, q10 7),
  ("drop".data, q10 7),
  ("drops".data, q10 7),
  ("dropping".data, q10 7),
  ("decline".data, q10 7),
  ("declines".data, q10 7),
  ("declining".data, q10 7),
  ("down".data, q10 4),
  ("lower".data, q10 5),
  ("low".data, q10 4),
  ("decrease".data, q10 6),
  ("decreases".data, q10 6),
  ("decreasing".data, q10 6),
  ("loss".data, q10 8),
  ("losses".data, q10 8),
  ("losing".data, q10 7),
  ("lose".data, q10 7),
  ("slip".data, q10 5),
  ("slips".data, q10 5),
  ("slipping".data, q10 5),
  ("slide".data, q10 6),
  ("slides".data, q10 6),
  ("sliding".data, q10 6),
  ("sink".data, q10 7),
  ("sinks".data, q10 7),
  ("sinking".data, q10 7),
  ("dip".data, q10 5),
  ("dips".data, q10 5),
  ("dipping".data, q10 5),
  ("retreat".data, q10 5),
  ("retreats".data, q10 5),
  ("retreating".data, q10 5),
  ("bearish".data, q10 9),
  ("pessimistic".data, q10 8),
  ("pessimism".data, q10 8),
  ("negative".data, q10 6),
  ("weak".data, q10 6),
  ("weakness".data, q10 6),
  ("concern".data, q10 5),
  ("concerns".data, q10 5),
  ("worried".data, q10 6),
  ("worry".data, q10 6),
  ("worries".data, q10 6),
  ("fear".data, q10 7),
  ("fears".data, q10 7),
  ("uncertain".data, q10 5),
  ("uncertainty".data, q10 6),
  ("volatile".data, q10 5),
  ("volatility".data, q10 5),
  ("risk".data, q10 4),
  ("risks".data, q10 4),
  ("risky".data, q10 5),
  ("underperform".data, q10 8),
  ("underperforms".data, q10 8),
  ("miss".data, q10 6),
  ("misses".data, q10 6),
  ("missing".data, q10 6),
  ("downgrade".data, q10 8),
  ("downgrades".data, q10 8),
  ("downgraded".data, q10 8),
  ("sell".data, q10 7),
  ("selling".data, q10 6),
  ("debt".data, q10 5),
  ("default".data, q10 9),
  ("defaults".data, q10 9),
  ("bankrupt".data, q10 10),
  ("bankruptcy".data, q10 10),
  ("fraud".data, q10 10),
  ("scam".data, q10 10),
  ("scandal".data, q10 9),
  ("correction".data, q10 6),
  ("selloff".data, q10 8),
  ("bloodbath".data, q10 10),
  ("carnage".data, q10 10),
  ("meltdown".data, q10 10),
  ("recession".data, q10 8),
  ("inflation".data, q10 5),
  ("crisis".data, q10 9)]

/-- The `getIntensifiers` map. -/
def intensifiers : List (List Char × ℚ) := [
  ("very".data, q10 15),
  ("extremely".data, q10 20),
  ("highly".data, q10 15),
  ("significantly".data, q10 15),
  ("substantially".data, q10 15),
  ("massively".data, q10 20),
  ("hugely".data, q10 18),
  ("sharply".data, q10 15),
  ("strongly".data, q10 13),
  ("dramatically".data, q10 18),
  ("tremendously".data, q10 18),
  ("absolutely".data, q10 15),
  ("completely".data, q10 15),
  ("totally".data, q10 15),
  ("major".data, q10 13),
  ("huge".data, q10 15),
  ("big".data, q10 12),
  ("massive".data, q10 18)]

/-- The `getNegators` set. -/
def negators : List (List Char) := [
  "not".data,
  "no".data,
  "never".data,
  "neither".data,
  "nobody".data,
  "nothing".data,
  "nowhere".data,
  "none".data,
  "hardly".data,
  "barely".data,
  "scarcely".data,
  "without".data,
  "dont".data,
  "doesn".data,
  "didnt".data,
  "wont".data,
  "wouldnt".data,
  "couldnt".data,
  "shouldnt".data,
  "cant".data,
  "cannot".data,
  "isnt".data,
  "arent".data,
  "wasnt".data,
  "werent".data,
  "hasnt".data,
  "havent".data,
  "hadnt".data,
  "unlikely".data,
  "fail".data,
  "fails".data,
  "failed".data]

/-- A rune that `tokenize` keeps: `unicode.IsLetter || unicode.IsNumber`, at
ASCII granularity (every dictionary entry is ASCII). -/
def isWordChar (c : Char) : Bool := c.isAlpha || c.isDigit

/-- Worker for `tokenize`: `current` is the pending builder (reversed). -/
def tokenizeAux (current : List Char) : List Char → List (List Char)
  | [] => if current = [] then [] else [current.reverse]
  | c :: rest =>
    if isWordChar c then tokenizeAux (c.toLower :: current) rest
    else if current = [] then tokenizeAux [] rest
    else current.reverse :: tokenizeAux [] rest

/-- `sentiment.tokenize`: runs of letters/digits, lower-cased; everything
else separates. -/
def tokenize (text : List Char) : List (List Char) := tokenizeAux [] text

/-- The word at index `i`, lower-cased again as in the `Analyze` loop body. -/
def lowerAt (words : List (List Char)) (i : ℕ) : List Char := goLower (words.getD i [])

/-- `Analyzer.isNegated`: some negator among the 3 words before index `i`. -/
def isNegated (words : List (List Char)) (i : ℕ) : Bool :=
  (List.range' (i - 3) (i - (i - 3))).any
    (fun j => negators.any (fun n => n == goLower (words.getD j [])))

/-- `Analyzer.getIntensity`: the first intensifier among the 2 words before
index `i` gives its multiplier; otherwise 1. -/
def getIntensity (words : List (List Char)) (i : ℕ) : ℚ :=
  match (List.range' (i - 2) (i - (i - 2))).find?
      (fun j => (intensifiers.lookup (goLower (words.getD j []))).isSome) with
  | some j => (intensifiers.lookup (goLower (words.getD j []))).getD 1
  | none => 1

/-- The mutable state of the `Analyze` loop. -/
structure SentAcc where
  bull : ℚ
  bear : ℚ
  bullKw : List (List Char)
  bearKw : List (List Char)
  total : ℕ
deriving DecidableEq

/-- One iteration of the `Analyze` loop at index `i`: a bullish hit goes to
the bearish bucket when negated (and vice versa), scaled by the intensity. -/
def sentStep (words : List (List Char)) (acc : SentAcc) (i : ℕ) : SentAcc :=
  let word := lowerAt words i
  let negated := isNegated words i
  let intensity := getIntensity words i
  let acc1 :=
    match bullishWords.lookup word with
    | some score =>
      if negated then
        { acc with bear := qadd acc.bear (qmul score intensity),
                   bearKw := acc.bearKw ++ [word], total := acc.total + 1 }
      else
        { acc with bull := qadd acc.bull (qmul score intensity),
                   bullKw := acc.bullKw ++ [word], total := acc.total + 1 }
    | none => acc
  match bearishWords.lookup word with
  | some score =>
    if negated then
      { acc1 with bull := qadd acc1.bull (qmul score intensity),
                  bullKw := acc1.bullKw ++ [word], total := acc1.total + 1 }
    else
      { acc1 with bear := qadd acc1.bear (qmul score intensity),
                  bearKw := acc1.bearKw ++ [word], total := acc1.total + 1 }
  | none => acc1

/-- The `Analyze` loop over all word indices. -/
def scanWords (words : List (List Char)) : SentAcc :=
  (List.range words.length).foldl (sentStep words) ⟨0, 0, [], [], 0⟩

/-- Worker for `unique` carrying the `seen` set. -/
def uniqueAux (seen : List (List Char)) : List (List Char) → List (List Char)
  | [] => []
  | w :: rest =>
    if seen.any (fun x => x == w) then uniqueAux seen rest
    else w :: uniqueAux (w :: seen) rest

/-- `sentiment.unique`: first occurrence of each string, in order. -/
def unique (l : List (List Char)) : List (List Char) := uniqueAux [] l

/-- The `sentiment.Sentiment` labels. -/
inductive Sentiment where
  | bullish
  | bearish
  | neutral
deriving DecidableEq

/-- `sentiment.Result`. -/
structure SentimentResult where
  sentiment : Sentiment
  score : ℚ
  bullishKeywords : List (List Char)
  bearishKeywords : List (List Char)
  confidence : ℚ
deriving DecidableEq

/-- The tail of `Analyze` after the loop: score, label, confidence. -/
def analyzeWords (words : List (List Char)) : SentimentResult :=
  let acc := scanWords words
  let totalScore := qadd acc.bull acc.bear
  let score := if 0 < totalScore then qdiv (qsub acc.bull acc.bear) totalScore else 0
  let sentiment :=
    if q10 1 < score then Sentiment.bullish
    else if score < q10 (-1) then Sentiment.bearish
    else Sentiment.neutral
  let conf0 := qdiv (qOfNat acc.total) (qOfNat (words.length + 1))
  let confidence := if 1 < conf0 then 1 else conf0
  { sentiment := sentiment, score := score,
    bullishKeywords := unique acc.bullKw, bearishKeywords := unique acc.bearKw,
    confidence := confidence }

/-- `sentiment.Analyzer.Analyze`. -/
def analyze (text : List Char) : SentimentResult := analyzeWords (tokenize text)

theorem bullishWords_nonneg : ∀ p ∈ bullishWords, 0 ≤ p.2 := by decide

theorem bearishWords_nonneg : ∀ p ∈ bearishWords, 0 ≤ p.2 := by decide

theorem intensifiers_nonneg : ∀ p ∈ intensifiers, 0 ≤ p.2 := by decide

theorem lookup_mem {l : List (List Char × ℚ)} {k : List Char} {v : ℚ}
    (h : l.lookup k = some v) : ∃ a, (a, v) ∈ l := by
  induction l with
  | nil => simp [List.lookup] at h
  | cons p rest ih =>
    rcases p with ⟨a, b⟩
    rw [List.lookup] at h
    split at h
    · exact ⟨a, by simp [Option.some_inj.mp h]⟩
    · obtain ⟨a2, ha2⟩ := ih h
      exact ⟨a2, List.mem_cons_of_mem _ ha2⟩

theorem getIntensity_nonneg (words : List (List Char)) (i : ℕ) :
    0 ≤ getIntensity words i := by
  unfold getIntensity
  split
  · next j hj =>
    match hl : intensifiers.lookup (goLower (words.getD j [])) with
    | some v =>
      obtain ⟨a, ha⟩ := lookup_mem hl
      simpa [hl] using intensifiers_nonneg (a, v) ha
    | none => simp [hl]
  · exact zero_le_one

theorem sentStep_nonneg (words : List (List Char)) (acc : SentAcc) (i : ℕ)
    (hb : 0 ≤ acc.bull) (hr : 0 ≤ acc.bear) :
    0 ≤ (sentStep words acc i).bull ∧ 0 ≤ (sentStep words acc i).bear := by
  have hint := getIntensity_nonneg words i
  unfold sentStep
  have hb1 : ∀ v : ℚ, (∃ a, (a, v) ∈ bullishWords) → 0 ≤ v := by
    rintro v ⟨a, ha⟩
    exact bullishWords_nonneg (a, v) ha
  have hr1 : ∀ v : ℚ, (∃ a, (a, v) ∈ bearishWords) → 0 ≤ v := by
    rintro v ⟨a, ha⟩
    exact bearishWords_nonneg (a, v) ha
  match hlb : bullishWords.lookup (lowerAt words i),
        hlr : bearishWords.lookup (lowerAt words i) with
  | some v1, some v2 =>
    have h1 := hb1 v1 (lookup_mem hlb)
    have h2 := hr1 v2 (lookup_mem hlr)
    by_cases hn : isNegated words i <;>
      simp [hlb, hlr, hn, qadd_eq, qmul_eq] <;>
      constructor <;> positivity
  | some v1, none =>
    have h1 := hb1 v1 (lookup_mem hlb)
    by_cases hn : isNegated words i <;>
      simp [hlb, hlr, hn, qadd_eq, qmul_eq] <;>
      constructor <;> positivity
  | none, some v2 =>
    have h2 := hr1 v2 (lookup_mem hlr)
    by_cases hn : isNegated words i <;>
      simp [hlb, hlr, hn, qadd_eq, qmul_eq] <;>
      constructor <;> positivity
  | none, none =>
    simp [hlb, hlr]
    exact ⟨hb, hr⟩

theorem foldl_sentStep_nonneg (words : List (List Char)) (l : List ℕ) :
    ∀ acc : SentAcc, 0 ≤ acc.bull → 0 ≤ acc.bear →
      0 ≤ (l.foldl (sentStep words) acc).bull ∧
      0 ≤ (l.foldl (sentStep words) acc).bear := by
  induction l with
  | nil => exact fun acc hb hr => ⟨hb, hr⟩
  | cons i rest ih =>
    intro acc hb hr
    have h := sentStep_nonneg words acc i hb hr
    exact ih (sentStep words acc i) h.1 h.2

theorem scanWords_nonneg (words : List (List Char)) :
    0 ≤ (scanWords words).bull ∧ 0 ≤ (scanWords words).bear :=
  foldl_sentStep_nonneg words _ ⟨0, 0, [], [], 0⟩ (le_refl 0) (le_refl 0)

theorem analyzeWords_bounds (words : List (List Char)) :
    -1 ≤ (analyzeWords words).score ∧ (analyzeWords words).score ≤ 1 ∧
    0 ≤ (analyzeWords words).confidence ∧ (analyzeWords words).confidence ≤ 1 := by
  obtain ⟨hb, hr⟩ := scanWords_nonneg words
  simp only [analyzeWords, qadd_eq, qsub_eq, qdiv_eq, qOfNat_eq]
  refine ⟨?_, ?_, ?_, ?_⟩
  · split
    · next ht =>
      rw [le_div_iff₀ ht]
      linarith
    · norm_num
  · split
    · next ht =>
      rw [div_le_one ht]
      linarith
    · norm_num
  · split
    · norm_num
    · positivity
  · split
    · exact le_refl 1
    · next h =>
      have h2 : ((scanWords words).total : ℚ) / ((words.length : ℚ) + 1) ≤ 1 := by
        push_neg at h
        simpa using h
      simpa using h2
  
/-- Claim C4: for every input text the sentiment score lies in [-1, 1] and
the confidence in [0, 1]; the empty string yields Neutral, score 0 and
confidence 0. -/
theorem c4_score_confidence_bounds :
    (∀ text, -1 ≤ (analyze text).score ∧ (analyze text).score ≤ 1 ∧
       0 ≤ (analyze text).confidence ∧ (analyze text).confidence ≤ 1) ∧
    (analyze "".data).sentiment = Sentiment.neutral ∧
    (analyze "".data).score = 0 ∧ (analyze "".data).confidence = 0 :=
  ⟨fun text => analyzeWords_bounds (tokenize text), by decide, by decide, by decide⟩

/-- The amount index `i` contributes to the bullish sum: a non-negated
bullish hit, plus a negated bearish hit (the flipped bucket). -/
def bullContrib (words : List (List Char)) (i : ℕ) : ℚ :=
  (match bullishWords.lookup (lowerAt words i) with
   | some s => if isNegated words i then 0 else s * getIntensity words i
   | none => 0) +
  (match bearishWords.lookup (lowerAt words i) with
   | some s => if isNegated words i then s * getIntensity words i else 0
   | none => 0)

/-- The amount index `i` contributes to the bearish sum: a non-negated
bearish hit, plus a negated bullish hit (the flipped bucket). -/
def bearContrib (words : List (List Char)) (i : ℕ) : ℚ :=
  (match bullishWords.lookup (lowerAt words i) with
   | some s => if isNegated words i then s * getIntensity words i else 0
   | none => 0) +
  (match bearishWords.lookup (lowerAt words i) with
   | some s => if isNegated words i then 0 else s * getIntensity words i
   | none => 0)

theorem sentStep_scores (words : List (List Char)) (acc : SentAcc) (i : ℕ) :
    (sentStep words acc i).bull = acc.bull + bullContrib words i ∧
    (sentStep words acc i).bear = acc.bear + bearContrib words i := by
  unfold sentStep bullContrib bearContrib
  match hlb : bullishWords.lookup (lowerAt words i),
        hlr : bearishWords.lookup (lowerAt words i) with
  | some v1, some v2 =>
    by_cases hn : isNegated words i <;>
      simp [hlb, hlr, hn, qadd_eq, qmul_eq]
  | some v1, none =>
    by_cases hn : isNegated words i <;> simp [hlb, hlr, hn, qadd_eq, qmul_eq]
  | none, some v2 =>
    by_cases hn : isNegated words i <;> simp [hlb, hlr, hn, qadd_eq, qmul_eq]
  | none, none => simp [hlb, hlr]

theorem foldl_sentStep_scores (words : List (List Char)) (l : List ℕ) :
    ∀ acc : SentAcc,
      (l.foldl (sentStep words) acc).bull = acc.bull + (l.map (bullContrib words)).sum ∧
      (l.foldl (sentStep words) acc).bear = acc.bear + (l.map (bearContrib words)).sum := by
  induction l with
  | nil => intro acc; simp
  | cons i rest ih =>
    intro acc
    obtain ⟨h1, h2⟩ := ih (sentStep words acc i)
    obtain ⟨h3, h4⟩ := sentStep_scores words acc i
    simp only [List.foldl_cons, List.map_cons, List.sum_cons, h1, h2, h3, h4]
    constructor <;> ring

theorem scanWords_scores (words : List (List Char)) :
    (scanWords words).bull = ((List.range words.length).map (bullContrib words)).sum ∧
    (scanWords words).bear = ((List.range words.length).map (bearContrib words)).sum := by
  have h := foldl_sentStep_scores words (List.range words.length) ⟨0, 0, [], [], 0⟩
  simpa [scanWords] using h

theorem sentStep_kw_mono (words : List (List Char)) (acc : SentAcc) (i : ℕ) :
    acc.bullKw ⊆ (sentStep words acc i).bullKw ∧
    acc.bearKw ⊆ (sentStep words acc i).bearKw := by
  unfold sentStep
  match hlb : bullishWords.lookup (lowerAt words i),
        hlr : bearishWords.lookup (lowerAt words i) with
  | some v1, some v2 =>
    by_cases hn : isNegated words i <;>
      simp only [hlb, hlr, hn, if_true, if_false, Bool.false_eq_true] <;>
      exact ⟨fun a ha => by simp [List.mem_append, ha], fun a ha => by simp [List.mem_append, ha]⟩
  | some v1, none =>
    by_cases hn : isNegated words i <;>
      simp only [hlb, hlr, hn, if_true, if_false, Bool.false_eq_true] <;>
      exact ⟨fun a ha => by simp [List.mem_append, ha], fun a ha => by simp [List.mem_append, ha]⟩
  | none, some v2 =>
    by_cases hn : isNegated words i <;>
      simp only [hlb, hlr, hn, if_true, if_false, Bool.false_eq_true] <;>
      exact ⟨fun a ha => by simp [List.mem_append, ha], fun a ha => by simp [List.mem_append, ha]⟩
  | none, none => simp only [hlb, hlr]; exact ⟨fun a ha => ha, fun a ha => ha⟩

theorem foldl_sentStep_kw_mono (words : List (List Char)) (l : List ℕ) :
    ∀ acc : SentAcc,
      acc.bullKw ⊆ (l.foldl (sentStep words) acc).bullKw ∧
      acc.bearKw ⊆ (l.foldl (sentStep words) acc).bearKw := by
  induction l with
  | nil => exact fun acc => ⟨fun a ha => ha, fun a ha => ha⟩
  | cons i rest ih =>
    intro acc
    obtain ⟨h1, h2⟩ := sentStep_kw_mono words acc i
    obtain ⟨h3, h4⟩ := ih (sentStep words acc i)
    exact ⟨fun a ha => h3 (h1 ha), fun a ha => h4 (h2 ha)⟩

theorem sentStep_bearKw_mem (words : List (List Char)) (acc : SentAcc) (i : ℕ) (s : ℚ)
    (hl : bullishWords.lookup (lowerAt words i) = some s)
    (hn : isNegated words i = true) :
    lowerAt words i ∈ (sentStep words acc i).bearKw := by
  unfold sentStep
  match hlr : bearishWords.lookup (lowerAt words i) with
  | some v2 => simp [hl, hlr, hn, List.mem_append]
  | none => simp [hl, hlr, hn, List.mem_append]

theorem sentStep_bullKw_mem (words : List (List Char)) (acc : SentAcc) (i : ℕ) (s : ℚ)
    (hl : bearishWords.lookup (lowerAt words i) = some s)
    (hn : isNegated words i = true) :
    lowerAt words i ∈ (sentStep words acc i).bullKw := by
  unfold sentStep
  match hlb : bullishWords.lookup (lowerAt words i) with
  | some v1 => simp [hl, hlb, hn, List.mem_append]
  | none => simp [hl, hlb, hn, List.mem_append]

theorem foldl_sentStep_bearKw_mem (words : List (List Char)) (l : List ℕ) (i : ℕ) (s : ℚ)
    (hl : bullishWords.lookup (lowerAt words i) = some s)
    (hn : isNegated words i = true) :
    ∀ acc : SentAcc, i ∈ l →
      lowerAt words i ∈ (l.foldl (sentStep words) acc).bearKw := by
  induction l with
  | nil => intro acc h; simp at h
  | cons j rest ih =>
    intro acc hmem
    rcases List.mem_cons.mp hmem with hj | hj
    · subst hj
      exact (foldl_sentStep_kw_mono words rest (sentStep words acc i)).2
        (sentStep_bearKw_mem words acc i s hl hn)
    · exact ih (sentStep words acc j) hj

theorem foldl_sentStep_bullKw_mem (words : List (List Char)) (l : List ℕ) (i : ℕ) (s : ℚ)
    (hl : bearishWords.lookup (lowerAt words i) = some s)
    (hn : isNegated words i = true) :
    ∀ acc : SentAcc, i ∈ l →
      lowerAt words i ∈ (l.foldl (sentStep words) acc).bullKw := by
  induction l with
  | nil => intro acc h; simp at h
  | cons j rest ih =>
    intro acc hmem
    rcases List.mem_cons.mp hmem with hj | hj
    · subst hj
      exact (foldl_sentStep_kw_mono words rest (sentStep words acc i)).1
        (sentStep_bullKw_mem words acc i s hl hn)
    · exact ih (sentStep words acc j) hj

theorem mem_uniqueAux (w : List Char) :
    ∀ (l seen : List (List Char)),
      (w ∈ uniqueAux seen l ↔ w ∈ l ∧ seen.any (fun x => x == w) = false) := by
  intro l
  induction l with
  | nil => intro seen; simp [uniqueAux]
  | cons x rest ih =>
    intro seen
    unfold uniqueAux
    by_cases hs : seen.any (fun y => y == x) = true
    · rw [if_pos hs, ih seen, List.mem_cons]
      constructor
      · rintro ⟨h1, h2⟩
        exact ⟨Or.inr h1, h2⟩
      · rintro ⟨h1 | h1, h2⟩
        · subst h1
          exact absurd hs (by simp [h2])
        · exact ⟨h1, h2⟩
    · rw [if_neg hs, List.mem_cons, List.mem_cons, ih (x :: seen)]
      by_cases hw : w = x
      · subst hw
        have hf : (seen.any fun x => x == w) = false := by
          rw [Bool.eq_false_iff]
          exact hs
        simp [hf]
      · have hxw : (x == w) = false := by
          simp only [beq_eq_false_iff_ne, ne_eq]
          exact fun h => hw h.symm
        simp only [List.any_cons, hxw, Bool.false_or]
        constructor
        · rintro (h1 | ⟨h1, h2⟩)
          · exact absurd h1 hw
          · exact ⟨Or.inr h1, h2⟩
        · rintro ⟨h1 | h1, h2⟩
          · exact absurd h1 hw
          · exact Or.inr ⟨h1, h2⟩

theorem mem_unique (w : List Char) (l : List (List Char)) : w ∈ unique l ↔ w ∈ l := by
  rw [unique, mem_uniqueAux]
  simp

theorem analyzeWords_bearKw (words : List (List Char)) (w : List Char) :
    w ∈ (analyzeWords words).bearishKeywords ↔ w ∈ (scanWords words).bearKw := by
  simp only [analyzeWords]
  exact mem_unique w _

theorem analyzeWords_bullKw (words : List (List Char)) (w : List Char) :
    w ∈ (analyzeWords words).bullishKeywords ↔ w ∈ (scanWords words).bullKw := by
  simp only [analyzeWords]
  exact mem_unique w _

/-- Claim C3: a negated bullish token contributes its (intensity-scaled)
weight to the bearish sum and appears among the bearish keywords, and
symmetrically for negated bearish tokens; `Analyze("not bullish")` registers
a bearish keyword hit (and comes out Bearish), not a neutral no-op. -/
theorem c3_negation_flips_bucket :
    (∀ words,
       (scanWords words).bull = ((List.range words.length).map (bullContrib words)).sum ∧
       (scanWords words).bear = ((List.range words.length).map (bearContrib words)).sum) ∧
    (∀ words i s, i < words.length →
       bullishWords.lookup (lowerAt words i) = some s → isNegated words i = true →
       bearContrib words i = s * getIntensity words i ∧
       lowerAt words i ∈ (analyzeWords words).bearishKeywords) ∧
    (∀ words i s, i < words.length →
       bearishWords.lookup (lowerAt words i) = some s → isNegated words i = true →
       bullContrib words i = s * getIntensity words i ∧
       lowerAt words i ∈ (analyzeWords words).bullishKeywords) ∧
    (analyze "not bullish".data).bearishKeywords = ["bullish".data] ∧
    (analyze "not bullish".data).sentiment = Sentiment.bearish := by
  refine ⟨scanWords_scores, ?_, ?_, by decide, by decide⟩
  · intro words i s hi hl hn
    constructor
    · unfold bearContrib
      rw [hl, hn]
      match hlr : bearishWords.lookup (lowerAt words i) with
      | some v2 => simp [hn]
      | none => simp
    · rw [analyzeWords_bearKw]
      exact foldl_sentStep_bearKw_mem words (List.range words.length) i s hl hn _
        (List.mem_range.mpr hi)
  · intro words i s hi hl hn
    constructor
    · unfold bullContrib
      rw [hl, hn]
      match hlb : bullishWords.lookup (lowerAt words i) with
      | some v1 => simp [hlb]
      | none => simp [hlb]
    · rw [analyzeWords_bullKw]
      exact foldl_sentStep_bullKw_mem words (List.range words.length) i s hl hn _
        (List.mem_range.mpr hi)

/-- Witness for C3 at `words = ["not", "bullish"]`, `i = 1`: the bullish
token "bullish" (weight 0.9) is negated, contributes 0.9 to the bearish sum
and is reported as a bearish keyword. -/
theorem c3_negation_witness :
    bearContrib (tokenize "not bullish".data) 1 = q10 9 * getIntensity (tokenize "not bullish".data) 1 ∧
    lowerAt (tokenize "not bullish".data) 1 ∈
      (analyzeWords (tokenize "not bullish".data)).bearishKeywords :=
  c3_negation_flips_bucket.2.1 (tokenize "not bullish".data) 1 (q10 9)
    (by decide) (by decide) (by decide)

/-! ## Claims C7, C9, C10: the daily-picks pipeline
(`recommender.GenerateDailyPicksWithFilter`, `passesFilter`,
`StreamDailyPicks`).  `Engine.AnalyzeStock` is an external collaborator here
and is modelled as an oracle function; the batch results channel delivers
records in an arbitrary order, modelled by quantifying over the list. -/

/-- `storage.Action`. -/
inductive Action where
  | buy
  | sell
  | hold
deriving DecidableEq

/-- The fields of `storage.StockFundamental` the daily-picks pipeline reads. -/
structure StockFundamental where
  marketCap : ℚ
  stockPE : ℚ
  roe : ℚ
  debtToEquity : ℚ
deriving DecidableEq

/-- The fields of `storage.Recommendation` the daily-picks pipeline reads. -/
structure Recommendation where
  action : Action
  entryPrice : ℚ
  targetPrice : ℚ
  stopLoss : ℚ
  confidenceScore : ℚ
  reasoning : List Char
  llmReasoning : List Char
  timeHorizon : List Char
  riskLevel : List Char
deriving DecidableEq

/-- The `Stock` fields of `recommender.AnalysisResult` the loop reads. -/
structure StockInfo where
  name : List Char
  sector : List Char
deriving DecidableEq

/-- `recommender.AnalysisResult` (the fields the daily-picks loops read);
`none` sub-fields model nil pointers. -/
structure AnalysisResult where
  stock : Option StockInfo
  fundamental : Option StockFundamental
  recommendation : Option Recommendation
deriving DecidableEq

/-- `recommender.DailyPick` (the fields used by filtering and ranking). -/
structure DailyPick where
  rank : ℤ
  symbol : List Char
  name : List Char
  sector : List Char
  action : Action
  entryPrice : ℚ
  targetPrice : ℚ
  stopLoss : ℚ
  confidenceScore : ℚ
  reasoning : List Char
  timeHorizon : List Char
  riskLevel : List Char
  sources : List (List Char)
  marketCap : ℚ
  pe : ℚ
  roe : ℚ
deriving DecidableEq

/-- `recommender.DailyPicksFilter`; a zero/empty field is an absent bound. -/
structure DailyPicksFilter where
  minPrice : ℚ
  maxPrice : ℚ
  minMarketCap : ℚ
  maxMarketCap : ℚ
  minPE : ℚ
  maxPE : ℚ
  minConfidence : ℚ
  riskLevels : List (List Char)
  timeHorizons : List (List Char)
  sectors : List (List Char)
  minROE : ℚ
  maxDebtToEquity : ℚ
deriving DecidableEq

/-- The Go zero value of `DailyPicksFilter`: no bound set. -/
def emptyFilter : DailyPicksFilter := ⟨0, 0, 0, 0, 0, 0, 0, [], [], [], 0, 0⟩

/-- `recommender.containsString`. -/
def containsString (slice : List (List Char)) (s : List Char) : Bool :=
  slice.any (fun item => item == s)

/-- `recommender.containsStringInsensitive`: equality after lower-casing, or
the filter entry occurring as a substring of `s` (one direction only). -/
def containsStringInsensitive (slice : List (List Char)) (s : List Char) : Bool :=
  let s2 := goLower s
  slice.any (fun item => goLower item == s2 || goContains s2 (goLower item))

/-- `recommender.Engine.passesFilter`. -/
def passesFilter (pick : DailyPick) (fundamental : Option StockFundamental)
    (filter : DailyPicksFilter) : Bool :=
  if 0 < filter.minPrice ∧ pick.entryPrice < filter.minPrice then false
  else if 0 < filter.maxPrice ∧ filter.maxPrice < pick.entryPrice then false
  else if 0 < filter.minConfidence ∧ pick.confidenceScore < filter.minConfidence then false
  else if filter.riskLevels ≠ [] ∧ containsString filter.riskLevels pick.riskLevel = false then false
  else if filter.timeHorizons ≠ [] ∧ containsString filter.timeHorizons pick.timeHorizon = false then false
  else if filter.sectors ≠ [] ∧ pick.sector ≠ [] ∧
      containsStringInsensitive filter.sectors pick.sector = false then false
  else
    match fundamental with
    | none => true
    | some f =>
      if 0 < filter.minMarketCap ∧ f.marketCap < filter.minMarketCap then false
      else if 0 < filter.maxMarketCap ∧ filter.maxMarketCap < f.marketCap then false
      else if 0 < filter.minPE ∧ 0 < f.stockPE ∧ f.stockPE < filter.minPE then false
      else if 0 < filter.maxPE ∧ 0 < f.stockPE ∧ filter.maxPE < f.stockPE then false
      else if 0 < filter.minROE ∧ f.roe < filter.minROE then false
      else if 0 < filter.maxDebtToEquity ∧ filter.maxDebtToEquity < f.debtToEquity then false
      else true

theorem passesFilter_iff (pick : DailyPick) (fund : Option StockFundamental)
    (filter : DailyPicksFilter) :
    passesFilter pick fund filter = true ↔
      (¬(0 < filter.minPrice ∧ pick.entryPrice < filter.minPrice) ∧
       ¬(0 < filter.maxPrice ∧ filter.maxPrice < pick.entryPrice) ∧
       ¬(0 < filter.minConfidence ∧ pick.confidenceScore < filter.minConfidence) ∧
       ¬(filter.riskLevels ≠ [] ∧ containsString filter.riskLevels pick.riskLevel = false) ∧
       ¬(filter.timeHorizons ≠ [] ∧ containsString filter.timeHorizons pick.timeHorizon = false) ∧
       ¬(filter.sectors ≠ [] ∧ pick.sector ≠ [] ∧
           containsStringInsensitive filter.sectors pick.sector = false) ∧
       (∀ f, fund = some f →
          ¬(0 < filter.minMarketCap ∧ f.marketCap < filter.minMarketCap) ∧
          ¬(0 < filter.maxMarketCap ∧ filter.maxMarketCap < f.marketCap) ∧
          ¬(0 < filter.minPE ∧ 0 < f.stockPE ∧ f.stockPE < filter.minPE) ∧
          ¬(0 < filter.maxPE ∧ 0 < f.stockPE ∧ filter.maxPE < f.stockPE) ∧
          ¬(0 < filter.minROE ∧ f.roe < filter.minROE) ∧
          ¬(0 < filter.maxDebtToEquity ∧ filter.maxDebtToEquity < f.debtToEquity))) := by
  unfold passesFilter
  by_cases h1 : (0 < filter.minPrice ∧ pick.entryPrice < filter.minPrice)
  · rw [if_pos h1]
    simp [h1]
  · rw [if_neg h1]
    by_cases h2 : (0 < filter.maxPrice ∧ filter.maxPrice < pick.entryPrice)
    · rw [if_pos h2]
      simp [h2]
    · rw [if_neg h2]
      by_cases h3 : (0 < filter.minConfidence ∧ pick.confidenceScore < filter.minConfidence)
      · rw [if_pos h3]
        simp [h3]
      · rw [if_neg h3]
        by_cases h4 : (filter.riskLevels ≠ [] ∧ containsString filter.riskLevels pick.riskLevel = false)
        · rw [if_pos h4]
          simp [h4]
        · rw [if_neg h4]
          by_cases h5 : (filter.timeHorizons ≠ [] ∧ containsString filter.timeHorizons pick.timeHorizon = false)
          · rw [if_pos h5]
            simp [h5]
          · rw [if_neg h5]
            by_cases h6 : (filter.sectors ≠ [] ∧ pick.sector ≠ [] ∧ containsStringInsensitive filter.sectors pick.sector = false)
            · rw [if_pos h6]
              simp [h6]
            · rw [if_neg h6]
              cases fund with
              | none => simp [h1, h2, h3, h4, h5, h6]
              | some f =>
                dsimp only
                by_cases d1 : (0 < filter.minMarketCap ∧ f.marketCap < filter.minMarketCap)
                · rw [if_pos d1]
                  simp [h1, h2, h3, h4, h5, h6, d1]
                · rw [if_neg d1]
                  by_cases d2 : (0 < filter.maxMarketCap ∧ filter.maxMarketCap < f.marketCap)
                  · rw [if_pos d2]
                    simp [h1, h2, h3, h4, h5, h6, d1, d2]
                  · rw [if_neg d2]
                    by_cases d3 : (0 < filter.minPE ∧ 0 < f.stockPE ∧ f.stockPE < filter.minPE)
                    · rw [if_pos d3]
                      simp [h1, h2, h3, h4, h5, h6, d1, d2, d3]
                    · rw [if_neg d3]
                      by_cases d4 : (0 < filter.maxPE ∧ 0 < f.stockPE ∧ filter.maxPE < f.stockPE)
                      · rw [if_pos d4]
                        simp [h1, h2, h3, h4, h5, h6, d1, d2, d3, d4]
                      · rw [if_neg d4]
                        by_cases d5 : (0 < filter.minROE ∧ f.roe < filter.minROE)
                        · rw [if_pos d5]
                          simp [h1, h2, h3, h4, h5, h6, d1, d2, d3, d4, d5]
                        · rw [if_neg d5]
                          by_cases d6 : (0 < filter.maxDebtToEquity ∧ filter.maxDebtToEquity < f.debtToEquity)
                          · rw [if_pos d6]
                            simp [h1, h2, h3, h4, h5, h6, d1, d2, d3, d4, d5, d6]
                          · rw [if_neg d6]
                            push_neg at d1 d2 d3 d4 d5 d6
                            simp [h1, h2, h3, h4, h5, h6]
                            exact ⟨d1, d2, d3, d4, d5, d6⟩

/-- A pick whose only interesting field is its sector (used by the C9
counterexample and witnesses). -/
def sectorPick (sec : List Char) : DailyPick :=
  ⟨0, [], [], sec, Action.buy, 0, 0, 0, 0, [], [], [], [], 0, 0, 0⟩

/-- Claim C9, counterexample.  Sector matching is NOT "containment in either
direction": with `Sectors = ["Banking Sector"]` a pick in sector `"Banking"`
is rejected, although the pick's sector is contained in the filter entry
(only the filter entry occurring inside the pick's sector is accepted). -/
theorem c9_counterexample :
    passesFilter (sectorPick "Banking".data) none
      { emptyFilter with sectors := ["Banking Sector".data] } = false ∧
    goContains (goLower "Banking Sector".data) (goLower "Banking".data) = true := by
  decide

/-- Claim C9, amended: an all-absent filter accepts every pick; a present
`minConfidence` bound rejects any lower confidence (so 80 rejects 79.9);
a passing pick satisfies every present bound; the fundamental-derived bounds
(market cap, P/E, ROE, debt/equity) are ignored entirely when fundamentals
are absent; and sector matching is case-insensitive, accepting equality or
the filter entry contained as a substring of the pick's sector (one
direction only, not both). -/
theorem c9_filter_semantics :
    (∀ pick fund, passesFilter pick fund emptyFilter = true) ∧
    (∀ pick fund filter, 0 < filter.minConfidence →
       pick.confidenceScore < filter.minConfidence →
       passesFilter pick fund filter = false) ∧
    (∀ pick fund filter, passesFilter pick fund filter = true →
       (0 < filter.minPrice → filter.minPrice ≤ pick.entryPrice) ∧
       (0 < filter.maxPrice → pick.entryPrice ≤ filter.maxPrice) ∧
       (0 < filter.minConfidence → filter.minConfidence ≤ pick.confidenceScore) ∧
       (filter.riskLevels ≠ [] → containsString filter.riskLevels pick.riskLevel = true) ∧
       (filter.timeHorizons ≠ [] → containsString filter.timeHorizons pick.timeHorizon = true) ∧
       (∀ f, fund = some f →
          (0 < filter.minROE → filter.minROE ≤ f.roe) ∧
          (0 < filter.maxDebtToEquity → f.debtToEquity ≤ filter.maxDebtToEquity))) ∧
    (∀ pick filter mc1 mc2 pe1 pe2 r d,
       passesFilter pick none
         { filter with minMarketCap := mc1, maxMarketCap := mc2, minPE := pe1,
                       maxPE := pe2, minROE := r, maxDebtToEquity := d }
         = passesFilter pick none filter) ∧
    (∀ items s, containsStringInsensitive items s = true ↔
       ∃ item ∈ items, goLower item = goLower s ∨
         goContains (goLower s) (goLower item) = true) := by
  refine ⟨?_, ?_, ?_, ?_, ?_⟩
  · intro pick fund
    rw [passesFilter_iff]
    refine ⟨fun h => absurd h.1 (lt_irrefl 0), fun h => absurd h.1 (lt_irrefl 0),
      fun h => absurd h.1 (lt_irrefl 0), fun h => h.1 rfl, fun h => h.1 rfl,
      fun h => h.1 rfl, ?_⟩
    intro f _
    exact ⟨fun h => absurd h.1 (lt_irrefl 0), fun h => absurd h.1 (lt_irrefl 0),
      fun h => absurd h.1 (lt_irrefl 0), fun h => absurd h.1 (lt_irrefl 0),
      fun h => absurd h.1 (lt_irrefl 0), fun h => absurd h.1 (lt_irrefl 0)⟩
  · intro pick fund filter h1 h2
    by_cases hp : passesFilter pick fund filter = true
    · have h3 := (passesFilter_iff pick fund filter).mp hp
      exact absurd ⟨h1, h2⟩ h3.2.2.1
    · simpa using hp
  · intro pick fund filter hpass
    have h := (passesFilter_iff pick fund filter).mp hpass
    obtain ⟨n1, n2, n3, n4, n5, n6, nf⟩ := h
    push_neg at n1 n2 n3
    refine ⟨n1, n2, n3, ?_, ?_, ?_⟩
    · intro hr
      rcases Bool.eq_false_or_eq_true (containsString filter.riskLevels pick.riskLevel) with h | h
      · exact h
      · exact absurd ⟨hr, h⟩ n4
    · intro hr
      rcases Bool.eq_false_or_eq_true (containsString filter.timeHorizons pick.timeHorizon) with h | h
      · exact h
      · exact absurd ⟨hr, h⟩ n5
    · intro f hf
      obtain ⟨m1, m2, m3, m4, m5, m6⟩ := nf f hf
      push_neg at m5 m6
      exact ⟨m5, m6⟩
  · intro pick filter mc1 mc2 pe1 pe2 r d
    rfl
  · intro items s
    simp only [containsStringInsensitive, List.any_eq_true, Bool.or_eq_true, beq_iff_eq]

/-- Witness for the amended C9 theorem: the empty filter accepts a concrete
pick, and a `minConfidence = 80` filter rejects the same pick at
confidence 79.9. -/
theorem c9_filter_witness :
    passesFilter (sectorPick "IT".data) none emptyFilter = true ∧
    passesFilter { sectorPick "IT".data with confidenceScore := mkRat 799 10 } none
      { emptyFilter with minConfidence := 80 } = false :=
  ⟨c9_filter_semantics.1 (sectorPick "IT".data) none,
   c9_filter_semantics.2.1 _ none _ (by norm_num) (by norm_num [sectorPick, mkRat])⟩

/-- `determineMarketSentiment`: average confidence and buy-ratio over a pick
set; empty set is NEUTRAL. -/
def determineMarketSentiment (picks : List DailyPick) : List Char :=
  if picks = [] then "NEUTRAL".data
  else
    let totalConfidence := picks.foldl (fun a p => qadd a p.confidenceScore) 0
    let buyCount := (picks.filter (fun p => p.action == Action.buy)).length
    let avgConfidence := qdiv totalConfidence (qOfNat picks.length)
    let buyRatio := qdiv (qOfNat buyCount) (qOfNat picks.length)
    if 60 < avgConfidence ∧ mkRat 1 2 < buyRatio then "BULLISH".data
    else if avgConfidence < 40 ∨ buyRatio < mkRat 3 10 then "BEARISH".data
    else "NEUTRAL".data

/-- One record delivered on the batch-mode `results` channel
(`analysisResult` in `GenerateDailyPicksWithFilter`); `err = true` models a
non-nil error, `analysis = none` a nil result. -/
structure BatchItem where
  symbol : List Char
  name : List Char
  sources : List Char
  analysis : Option AnalysisResult
  err : Bool
deriving DecidableEq

/-- Building one `DailyPick` from an analysis result (shared text of both
the batch and the streaming loop): name falls back to the stock record,
sector comes from it, fundamentals fill market cap / P/E / ROE, and a
non-empty LLM reasoning overrides the plain reasoning. -/
def buildPick (symbol name0 sources0 : List Char) (a : AnalysisResult)
    (rec : Recommendation) : DailyPick :=
  { rank := 0, symbol := symbol,
    name := match a.stock with
      | some st => if name0 = [] then st.name else name0
      | none => name0,
    sector := match a.stock with
      | some st => st.sector
      | none => [],
    action := rec.action,
    entryPrice := rec.entryPrice, targetPrice := rec.targetPrice,
    stopLoss := rec.stopLoss, confidenceScore := rec.confidenceScore,
    reasoning := if rec.llmReasoning ≠ [] then rec.llmReasoning else rec.reasoning,
    timeHorizon := rec.timeHorizon, riskLevel := rec.riskLevel,
    sources := [sources0],
    marketCap := match a.fundamental with | some f => f.marketCap | none => 0,
    pe := match a.fundamental with | some f => f.stockPE | none => 0,
    roe := match a.fundamental with | some f => f.roe | none => 0 }

/-- One iteration of the batch result-collection loop: count it as analyzed,
then skip errors, nil results, nil recommendations, non-Buy actions and
filter rejections; otherwise append the pick to `analyzedStocks`. -/
def collectStep (filter : Option DailyPicksFilter)
    (st : List DailyPick × ℕ) (r : BatchItem) : List DailyPick × ℕ :=
  let st2 := (st.1, st.2 + 1)
  if r.err then st2
  else
    match r.analysis with
    | none => st2
    | some a =>
      match a.recommendation with
      | none => st2
      | some rec =>
        if rec.action ≠ Action.buy then st2
        else
          let pick := buildPick r.symbol r.name r.sources a rec
          let rejected : Bool := match filter with
            | some f => !(passesFilter pick a.fundamental f)
            | none => false
          if rejected then st2 else (st2.1 ++ [pick], st2.2)

/-- The batch collection over all channel records (in arrival order):
`(analyzedStocks, totalAnalyzed)`. -/
def collectBatch (rs : List BatchItem) (filter : Option DailyPicksFilter) :
    List DailyPick × ℕ :=
  rs.foldl (collectStep filter) ([], 0)

/-- The rank-assignment loop (`topPicks[i].Rank = i + 1`), start value `n`. -/
def assignRanks : ℤ → List DailyPick → List DailyPick
  | _, [] => []
  | n, p :: rest => { p with rank := n } :: assignRanks (n + 1) rest

/-- The order produced by `sort.Slice(..., conf i > conf j)`: confidence
non-increasing. -/
def confDesc (a b : DailyPick) : Prop := b.confidenceScore ≤ a.confidenceScore

instance : DecidableRel confDesc := fun a b =>
  inferInstanceAs (Decidable (b.confidenceScore ≤ a.confidenceScore))

/-- Relational model of the ranking tail of `GenerateDailyPicksWithFilter`:
`sort.Slice` is unstable and the channel order feeding `analyzedStocks` is a
race, so the sorted list is ANY permutation of the accepted picks that is
non-increasing in confidence; the result picks are its first 10 with ranks
reassigned from 1, and the market sentiment is computed over ALL accepted
picks (the full sorted list), before truncation. -/
def batchOutcome (rs : List BatchItem) (filter : Option DailyPicksFilter)
    (picks : List DailyPick) (ms : List Char) : Prop :=
  ∃ sorted, sorted.Perm (collectBatch rs filter).1 ∧
    List.Pairwise confDesc sorted ∧
    picks = assignRanks 1 (sorted.take 10) ∧
    ms = determineMarketSentiment sorted

theorem foldl_qadd_eq_sum (l : List DailyPick) :
    ∀ a0 : ℚ, l.foldl (fun a p => qadd a p.confidenceScore) a0
      = a0 + (l.map (·.confidenceScore)).sum := by
  induction l with
  | nil => intro a0; simp
  | cons p rest ih =>
    intro a0
    rw [List.foldl_cons, ih (qadd a0 p.confidenceScore), qadd_eq]
    simp only [List.map_cons, List.sum_cons]
    ring

theorem determineMarketSentiment_perm {l l2 : List DailyPick} (h : l.Perm l2) :
    determineMarketSentiment l = determineMarketSentiment l2 := by
  by_cases hl : l = []
  · subst hl
    rw [List.Perm.eq_nil h.symm]
  · have hl2 : l2 ≠ [] := fun he => hl (List.Perm.eq_nil (he ▸ h))
    have e1 : l.foldl (fun a p => qadd a p.confidenceScore) 0
        = l2.foldl (fun a p => qadd a p.confidenceScore) 0 := by
      rw [foldl_qadd_eq_sum, foldl_qadd_eq_sum, List.Perm.sum_eq (List.Perm.map _ h)]
    have e2 : (l.filter (fun p => p.action == Action.buy)).length
        = (l2.filter (fun p => p.action == Action.buy)).length :=
      List.Perm.length_eq (List.Perm.filter _ h)
    have e3 : l.length = l2.length := h.length_eq
    simp only [determineMarketSentiment, hl, hl2, if_false, e1, e2, e3]

theorem assignRanks_length (l : List DailyPick) : ∀ n, (assignRanks n l).length = l.length := by
  induction l with
  | nil => intro n; rfl
  | cons p rest ih => intro n; simp [assignRanks, ih]

theorem assignRanks_get (l : List DailyPick) :
    ∀ (n : ℤ) (i : ℕ) (h : i < (assignRanks n l).length),
      ((assignRanks n l).get ⟨i, h⟩).rank = n + i := by
  induction l with
  | nil => intro n i h; simp [assignRanks] at h
  | cons p rest ih =>
    intro n i h
    match i with
    | 0 => simp [assignRanks]
    | j + 1 =>
      have h2 : j < (assignRanks (n + 1) rest).length := by
        simpa [assignRanks] using h
      have := ih (n + 1) j h2
      simp only [assignRanks, List.get_cons_succ]
      rw [this]
      push_cast
      ring

theorem assignRanks_mem (l : List DailyPick) :
    ∀ (n : ℤ) (p : DailyPick), p ∈ assignRanks n l →
      ∃ q ∈ l, p.confidenceScore = q.confidenceScore ∧ p.action = q.action := by
  induction l with
  | nil => intro n p h; simp [assignRanks] at h
  | cons q rest ih =>
    intro n p h
    rcases List.mem_cons.mp h with he | he
    · subst he
      exact ⟨q, List.mem_cons_self q rest, rfl, rfl⟩
    · obtain ⟨q2, hq2, hc, ha⟩ := ih (n + 1) p he
      exact ⟨q2, List.mem_cons_of_mem q hq2, hc, ha⟩

theorem assignRanks_pairwise (l : List DailyPick) (hp : List.Pairwise confDesc l) :
    ∀ n, List.Pairwise confDesc (assignRanks n l) := by
  induction l with
  | nil => intro n; exact List.Pairwise.nil
  | cons p rest ih =>
    intro n
    rcases List.pairwise_cons.mp hp with ⟨hhead, htail⟩
    refine List.pairwise_cons.mpr ⟨?_, ih htail (n + 1)⟩
    intro q2 hq2
    obtain ⟨q, hq, hc, _⟩ := assignRanks_mem rest (n + 1) q2 hq2
    show q2.confidenceScore ≤ _
    rw [hc]
    exact hhead q hq

theorem collectBatch_buy (rs : List BatchItem) (filter : Option DailyPicksFilter) :
    ∀ p ∈ (collectBatch rs filter).1, p.action = Action.buy := by
  unfold collectBatch
  suffices h : ∀ st : List DailyPick × ℕ, (∀ p ∈ st.1, p.action = Action.buy) →
      ∀ p ∈ (rs.foldl (collectStep filter) st).1, p.action = Action.buy by
    exact h ([], 0) (by simp)
  induction rs with
  | nil => intro st hst; exact hst
  | cons r rest ih =>
    intro st hst
    refine ih (collectStep filter st r) ?_
    intro p hp
    unfold collectStep at hp
    split at hp
    · exact hst p hp
    · match hra : r.analysis, hp with
      | none, hp => exact hst p hp
      | some a, hp =>
        simp only at hp
        match hrr : a.recommendation, hp with
        | none, hp => exact hst p hp
        | some rec, hp =>
          simp only at hp
          split at hp
          · exact hst p hp
          · next hbuy =>
            push_neg at hbuy
            split at hp
            · exact hst p hp
            · rcases List.mem_append.mp hp with h2 | h2
              · exact hst p h2
              · rcases List.mem_singleton.mp h2 with rfl
                exact hbuy

/-- A bare Buy recommendation at confidence `c` (scenario building block). -/
def recWith (act : Action) (c : ℚ) : Recommendation :=
  ⟨act, 0, 0, 0, c, [], [], [], []⟩

/-- A successful channel record with only a recommendation. -/
def itemOf (sym : List Char) (rec : Recommendation) : BatchItem :=
  ⟨sym, [], [], some ⟨none, none, some rec⟩, false⟩

/-- The C7 scenario: 2 Buy outcomes (confidence 72 and 55) and one Hold. -/
def batchScenario : List BatchItem :=
  [itemOf "AAA".data (recWith Action.buy 72),
   itemOf "BBB".data (recWith Action.buy 55),
   itemOf "CCC".data (recWith Action.hold 60)]

/-- Claim C7: in batch mode only Buy outcomes become picks; the picks are
sorted by confidence descending, truncated to at most 10, with dense 1-based
ranks reassigned after truncation; market sentiment is computed over all
accepted picks before truncation; and the concrete 2-Buy(72,55)+1-Hold
scenario yields exactly the 2 picks [72, 55] with ranks [1, 2]. -/
theorem c7_batch_ranking :
    (∀ rs filter picks ms, batchOutcome rs filter picks ms →
       (∀ p ∈ picks, p.action = Action.buy) ∧
       List.Pairwise confDesc picks ∧
       picks.length ≤ 10 ∧
       (∀ (i : ℕ) (h : i < picks.length), (picks.get ⟨i, h⟩).rank = 1 + i) ∧
       ms = determineMarketSentiment (collectBatch rs filter).1) ∧
    (∀ picks ms, batchOutcome batchScenario none picks ms →
       picks.map (·.confidenceScore) = [72, 55] ∧ picks.map (·.rank) = [1, 2]) := by
  constructor
  · intro rs filter picks ms hb
    obtain ⟨sorted, hperm, hsort, hpicks, hms⟩ := hb
    subst hpicks
    refine ⟨?_, ?_, ?_, ?_, ?_⟩
    · intro p hp
      obtain ⟨q, hq, _, ha⟩ := assignRanks_mem _ 1 p hp
      have hq2 : q ∈ sorted := List.mem_of_mem_take hq
      have hq3 : q ∈ (collectBatch rs filter).1 := hperm.mem_iff.mp hq2
      rw [ha]
      exact collectBatch_buy rs filter q hq3
    · exact assignRanks_pairwise _ (List.Pairwise.sublist (List.take_sublist 10 sorted) hsort) 1
    · rw [assignRanks_length]
      exact (List.length_take 10 sorted).le.trans (min_le_left _ _)
    · intro i h
      rw [assignRanks_get]
    · rw [hms]
      exact determineMarketSentiment_perm hperm
  · intro picks ms hb
    obtain ⟨sorted, hperm, hsort, hpicks, hms⟩ := hb
    have hc : (collectBatch batchScenario none).1 =
        [buildPick "AAA".data [] [] ⟨none, none, some (recWith Action.buy 72)⟩ (recWith Action.buy 72),
         buildPick "BBB".data [] [] ⟨none, none, some (recWith Action.buy 55)⟩ (recWith Action.buy 55)] := by
      decide
    rw [hc] at hperm
    set pA := buildPick "AAA".data [] [] ⟨none, none, some (recWith Action.buy 72)⟩ (recWith Action.buy 72) with hpa
    set pB := buildPick "BBB".data [] [] ⟨none, none, some (recWith Action.buy 55)⟩ (recWith Action.buy 55) with hpb
    have hAB : pA ≠ pB := by
      rw [hpa, hpb]
      decide
    have hsorted : sorted = [pA, pB] := by
      have hlen : sorted.length = 2 := by
        simpa using hperm.length_eq
      match sorted, hlen with
      | [x, y], _ =>
        have hx : x ∈ [pA, pB] := hperm.mem_iff.mp (by simp)
        have hy : y ∈ [pA, pB] := hperm.mem_iff.mp (by simp)
        have hcnt := hperm.count_eq pA
        rcases List.mem_pair.mp hx with rfl | rfl
        · rcases List.mem_pair.mp hy with rfl | rfl
          · exfalso
            revert hcnt
            simp [List.count_cons, beq_iff_eq, hAB, Ne.symm hAB]
          · rfl
        · exfalso
          have hle : pA.confidenceScore ≤ pB.confidenceScore := by
            rcases List.mem_pair.mp hy with rfl | rfl
            · exact (List.pairwise_cons.mp hsort).1 pA (by simp)
            · revert hcnt
              simp [List.count_cons, beq_iff_eq, hAB, Ne.symm hAB]
          revert hle
          rw [hpa, hpb]
          decide
    subst hsorted
    rw [hpicks, hpa, hpb]
    constructor
    · decide
    · decide

/-- Witness for C7 at the concrete scenario: the collected picks are the two
Buy outcomes in confidence order with ranks 1 and 2. -/
theorem c7_batch_witness :
    (assignRanks 1 ((collectBatch batchScenario none).1.take 10)).map (·.confidenceScore)
      = [72, 55] ∧
    (assignRanks 1 ((collectBatch batchScenario none).1.take 10)).map (·.rank) = [1, 2] :=
  c7_batch_ranking.2 _ _
    ⟨(collectBatch batchScenario none).1, List.Perm.refl _, by decide, rfl, rfl⟩

/-- The streaming events of `StreamDailyPicks` (fields the claims read; the
purely textual pre-loop progress events and the discovery-error path carry no
picks and are elided). -/
inductive StreamEvent where
  | progress (progressIdx total : ℕ) (currentSymbol : List Char)
  | pick (p : DailyPick)
  | complete (totalPicks : ℕ) (marketSentiment : List Char)
deriving DecidableEq

/-- Has the context been cancelled before processing index `i`? -/
def cancelledAt (cancelFrom : Option ℕ) (i : ℕ) : Bool :=
  match cancelFrom with
  | some j => j ≤ i
  | none => false

/-- The per-candidate loop of `StreamDailyPicks`.  `oracle` stands for
`e.AnalyzeStock` (`none` models an error or nil result); on cancellation the
stream simply ends (the deferred close, no complete event); a filtered-out
candidate reverts the rank counter; the loop stops after the 10th pick. -/
def streamLoop (oracle : List Char → Option AnalysisResult)
    (filter : Option DailyPicksFilter) (total : ℕ) (cancelFrom : Option ℕ) :
    List DStock → ℕ → List DailyPick → ℤ → List StreamEvent
  | [], _, picks, _ =>
    [StreamEvent.complete picks.length (determineMarketSentiment picks)]
  | c :: rest, i, picks, pickRank =>
    if cancelledAt cancelFrom i then []
    else
      let ev := StreamEvent.progress (i + 1) total c.symbol
      match oracle c.symbol with
      | none => ev :: streamLoop oracle filter total cancelFrom rest (i + 1) picks pickRank
      | some a =>
        match a.recommendation with
        | none => ev :: streamLoop oracle filter total cancelFrom rest (i + 1) picks pickRank
        | some rec =>
          if rec.action ≠ Action.buy then
            ev :: streamLoop oracle filter total cancelFrom rest (i + 1) picks pickRank
          else
            let pick := { buildPick c.symbol c.name c.source a rec with rank := pickRank + 1 }
            let rejected : Bool := match filter with
              | some f => !(passesFilter pick a.fundamental f)
              | none => false
            if rejected then
              ev :: streamLoop oracle filter total cancelFrom rest (i + 1) picks pickRank
            else
              let picks2 := picks ++ [pick]
              if 10 ≤ picks2.length then
                [ev, StreamEvent.pick pick,
                 StreamEvent.complete picks2.length (determineMarketSentiment picks2)]
              else
                ev :: StreamEvent.pick pick ::
                  streamLoop oracle filter total cancelFrom rest (i + 1) picks2 (pickRank + 1)

/-- `StreamDailyPicks` after a successful discovery returning `candidates`:
truncate to 15, then run the loop with empty pick state. -/
def streamDailyPicks (oracle : List Char → Option AnalysisResult)
    (filter : Option DailyPicksFilter) (cancelFrom : Option ℕ)
    (candidates : List DStock) : List StreamEvent :=
  let cands := candidates.take 15
  streamLoop oracle filter cands.length cancelFrom cands 0 [] 0

/-- The picks carried by the stream's `pick` events, in emission order. -/
def pickEvents (evs : List StreamEvent) : List DailyPick :=
  evs.filterMap (fun e => match e with
    | StreamEvent.pick p => some p
    | _ => none)

/-- Ranks `start, start+1, ..., start+n-1`. -/
def rankSeq (start : ℤ) (n : ℕ) : List ℤ :=
  (List.range n).map (fun (k : ℕ) => start + (k : ℤ))

theorem rankSeq_succ (start : ℤ) (n : ℕ) :
    rankSeq start (n + 1) = start :: rankSeq (start + 1) n := by
  simp only [rankSeq, List.range_succ_eq_map, List.map_cons, List.map_map, Nat.cast_zero,
    add_zero]
  congr 1
  apply List.map_congr_left
  intro k _
  simp only [Function.comp_apply]
  push_cast
  ring

theorem streamLoop_ranks (oracle : List Char → Option AnalysisResult)
    (filter : Option DailyPicksFilter) (total : ℕ) (cancelFrom : Option ℕ) :
    ∀ (cands : List DStock) (i : ℕ) (picks : List DailyPick) (pickRank : ℤ),
      (pickEvents (streamLoop oracle filter total cancelFrom cands i picks pickRank)).map (·.rank)
        = rankSeq (pickRank + 1)
            (pickEvents (streamLoop oracle filter total cancelFrom cands i picks pickRank)).length := by
  intro cands
  induction cands with
  | nil =>
    intro i picks pickRank
    simp [streamLoop, pickEvents, rankSeq]
  | cons c rest ih =>
    intro i picks pickRank
    unfold streamLoop
    split
    · simp [pickEvents, rankSeq]
    · cases horacle : oracle c.symbol with
      | none => simpa [pickEvents, horacle] using ih (i + 1) picks pickRank
      | some a =>
        cases hrec : a.recommendation with
        | none => simpa [pickEvents, horacle, hrec] using ih (i + 1) picks pickRank
        | some rec =>
          simp only [horacle, hrec]
          split
          · simpa [pickEvents] using ih (i + 1) picks pickRank
          · split
            · simpa [pickEvents] using ih (i + 1) picks pickRank
            · split
              · simp only [pickEvents, List.filterMap_cons, List.filterMap_nil,
                  List.length_cons, List.length_nil, List.map_cons, List.map_nil]
                rw [rankSeq_succ]
                simp [rankSeq]
              · simp only [pickEvents] at ih
                simp only [pickEvents, List.filterMap_cons, List.map_cons, List.length_cons]
                rw [ih (i + 1) _ (pickRank + 1), rankSeq_succ]

/-- Claim C10: in streaming mode the k-th emitted `pick` event carries rank
k (1-based, dense, in emission order): the ranks of the emitted picks are
exactly 1, 2, ..., for every oracle, filter, cancellation point and
candidate list — streamed ranks follow emission order, never a re-sort by
confidence. -/
theorem c10_stream_ranks (oracle : List Char → Option AnalysisResult)
    (filter : Option DailyPicksFilter) (cancelFrom : Option ℕ)
    (candidates : List DStock) :
    (pickEvents (streamDailyPicks oracle filter cancelFrom candidates)).map (·.rank)
      = rankSeq 1 (pickEvents (streamDailyPicks oracle filter cancelFrom candidates)).length := by
  have h := streamLoop_ranks oracle filter (candidates.take 15).length cancelFrom
    (candidates.take 15) 0 [] 0
  simpa [streamDailyPicks] using h

/-! ## Claim C6: the ordering of `DiscoverTrendingStocks`. -/

/-- The order produced by `sort.Slice(..., Mentions i > Mentions j)`:
mentions non-increasing. -/
def mentionsDesc (a b : DStock) : Prop := b.mentions ≤ a.mentions

instance : DecidableRel mentionsDesc := fun a b =>
  inferInstanceAs (Decidable (b.mentions ≤ a.mentions))

/-- Relational model of the tail of `DiscoverTrendingStocks`: the Go map of
aggregated candidates is materialized in an unspecified iteration order and
sorted by the unstable `sort.Slice` on mentions only, so a possible output is
any mentions-descending permutation of the aggregate, truncated to the top
30. -/
def discoverOutcome (agg out : List DStock) : Prop :=
  ∃ mid, mid.Perm agg ∧ List.Pairwise mentionsDesc mid ∧ out = mid.take 30

/-- Claim C6, counterexample.  Two candidates with equal mention counts can
come out in either order: both `[BBB, AAA]` and `[AAA, BBB]` are possible
outputs of `DiscoverTrendingStocks` for the same input, so the output is not
deterministic for equal counts and there is no tie-break by symbol (the
first output violates ascending symbol order among equal counts). -/
theorem c6_counterexample :
    discoverOutcome
      (aggregateStocks [⟨"BBB".data, [], [], 1⟩, ⟨"AAA".data, [], [], 1⟩])
      [⟨"BBB".data, [], [], 1⟩, ⟨"AAA".data, [], [], 1⟩] ∧
    discoverOutcome
      (aggregateStocks [⟨"BBB".data, [], [], 1⟩, ⟨"AAA".data, [], [], 1⟩])
      [⟨"AAA".data, [], [], 1⟩, ⟨"BBB".data, [], [], 1⟩] ∧
    ([⟨"BBB".data, [], [], 1⟩, ⟨"AAA".data, [], [], 1⟩] : List DStock)
      ≠ [⟨"AAA".data, [], [], 1⟩, ⟨"BBB".data, [], [], 1⟩] := by
  refine ⟨⟨[⟨"BBB".data, [], [], 1⟩, ⟨"AAA".data, [], [], 1⟩], by decide, by decide, by decide⟩,
         ⟨[⟨"AAA".data, [], [], 1⟩, ⟨"BBB".data, [], [], 1⟩], by decide, by decide, by decide⟩,
         by decide⟩

/-- Claim C6, amended: every possible output of `DiscoverTrendingStocks` is
ordered descending by aggregated mention count and truncated to at most the
top 30 of the aggregate; ties carry no symbol-based order and the output is
not deterministic for equal counts. -/
theorem c6_discover_order :
    ∀ agg out, discoverOutcome agg out →
      List.Pairwise mentionsDesc out ∧
      out.length = min agg.length 30 ∧
      ∀ x ∈ out, x ∈ agg := by
  intro agg out h
  obtain ⟨mid, hperm, hsort, hout⟩ := h
  subst hout
  refine ⟨List.Pairwise.sublist (List.take_sublist 30 mid) hsort, ?_, ?_⟩
  · rw [List.length_take, hperm.length_eq, min_comm]
  · intro x hx
    exact hperm.mem_iff.mp (List.mem_of_mem_take hx)

/-- Witness for the amended C6 theorem at the two-candidate aggregate. -/
theorem c6_discover_witness :
    List.Pairwise mentionsDesc
      [(⟨"BBB".data, [], [], 1⟩ : DStock), ⟨"AAA".data, [], [], 1⟩] ∧
    ([(⟨"BBB".data, [], [], 1⟩ : DStock), ⟨"AAA".data, [], [], 1⟩]).length
      = min (aggregateStocks [⟨"BBB".data, [], [], 1⟩, ⟨"AAA".data, [], [], 1⟩]).length 30 := by
  have hout : discoverOutcome
      (aggregateStocks [⟨"BBB".data, [], [], 1⟩, ⟨"AAA".data, [], [], 1⟩])
      [⟨"BBB".data, [], [], 1⟩, ⟨"AAA".data, [], [], 1⟩] :=
    ⟨[⟨"BBB".data, [], [], 1⟩, ⟨"AAA".data, [], [], 1⟩], by decide, by decide, by decide⟩
  have h := c6_discover_order _ _ hout
  exact ⟨h.1, h.2.1⟩


/-! ## Claims C1 and C2: the rate-limited fetcher (`screener.NewScraper`,
`Scraper.FetchStock`).  Wall-clock instants are ℚ seconds.  `FetchStock`
records `lastRequest = time.Now()` immediately BEFORE issuing the upstream
request; the upstream request's own duration enters the model only through
the caller's next call time. -/

/-- The `NewScraper` clamp: a configured delay below 3 seconds becomes 3. -/
def clampDelay (d : ℚ) : ℚ := if d < 3 then 3 else d

/-- The floor gate of `FetchStock`: at call time `t` with `lastRequest = l`,
if the elapsed time `t - l` is below the delay the caller sleeps until
`l + delay` and issues the request then; otherwise it issues at `t`.  The
issue time becomes the new `lastRequest`. -/
def floorGate (delay l t : ℚ) : ℚ :=
  if qsub t l < delay then qadd l delay else t

/-- Issue times of a sequence of sequential (non-overlapping) `FetchStock`
calls made at the given call times, threading `lastRequest` through the
instance: each call reads the `lastRequest` written by the previous one. -/
def startTimes (delay : ℚ) : ℚ → List ℚ → List ℚ
  | _, [] => []
  | l, t :: ts =>
    let s := floorGate delay l t
    s :: startTimes delay s ts

/-- Two CONCURRENT `FetchStock` calls on one scraper, arriving at `t1 ≤ t2`
with `lastRequest = l0`.  `FetchStock` releases the mutex before the floor
sleep (`s.mu.Unlock()` ahead of the `select`) and does not re-check the
elapsed time after re-locking, so if caller B locks while caller A is still
asleep (`t2` before A's issue time), B reads the STALE `l0` and computes the
same wake time; if B arrives after A's issue, it reads A's update.  Critical
sections are instantaneous and ties go to A.  Result: (A's issue time, B's
issue time). -/
def twoCallerIssues (delay l0 t1 t2 : ℚ) : ℚ × ℚ :=
  (floorGate delay l0 t1,
   if t2 < floorGate delay l0 t1 then floorGate delay l0 t2
   else floorGate delay (floorGate delay l0 t1) t2)

/-- Claim C1, counterexample.  Two refutations.  (i) End-to-start: with the
clamped 3s delay, a first request issued at t = 0 that takes 2 seconds
(ending at t = 2) and a second sequential call arriving at t = 2.5 gives
issue times [0, 3]: the start-to-start gap is the full 3 seconds, but the gap
from the END of the first request (t = 2) to the start of the second (t = 3)
is only 1 second — below the floor (`lastRequest` is recorded before the
request is issued, not after it completes).  (ii) Concurrency: with
`lastRequest = 0`, concurrent callers arriving at t = 1 and t = 2 both read
the stale `lastRequest` (the mutex is released during the floor sleep and
elapsed time is never re-checked), both wake at t = 3, and issue
simultaneously — a start-to-start gap of 0, below any floor. -/
theorem c1_counterexample :
    startTimes (clampDelay 3) (-1000000) [0, mkRat 5 2] = [0, 3] ∧
    ¬ (clampDelay 3 ≤ 3 - (0 + 2)) ∧
    clampDelay 3 = 3 ∧
    twoCallerIssues (clampDelay 3) 0 1 2 = (3, 3) ∧
    ¬ (clampDelay 3 ≤ 3 - 3) := by
  refine ⟨by decide, ?_, by decide, by decide, ?_⟩
  · intro h
    rw [show clampDelay 3 = 3 from by decide] at h
    norm_num at h
  · intro h
    rw [show clampDelay 3 = 3 from by decide] at h
    norm_num at h

theorem floorGate_ge (delay l t : ℚ) : delay ≤ floorGate delay l t - l := by
  unfold floorGate
  rw [qsub_eq, qadd_eq]
  split
  · simp
  · next h =>
    linarith [not_lt.mp h]

/-- A second caller that arrives before the first caller's issue time reads
the same stale `lastRequest` and is gated to the very same instant. -/
theorem floorGate_stale {delay l0 t1 t2 : ℚ} (h12 : t1 ≤ t2)
    (hlt : t2 < floorGate delay l0 t1) :
    floorGate delay l0 t2 = floorGate delay l0 t1 := by
  unfold floorGate at hlt ⊢
  split at hlt
  · next hA =>
    rw [if_pos hA]
    rw [qadd_eq] at hlt
    rw [qsub_eq] at hA
    have hB : qsub t2 l0 < delay := by
      rw [qsub_eq]
      linarith
    rw [if_pos hB]
  · next hA =>
    exact absurd h12 (not_le.mpr hlt)

/-- Claim C1, amended: the constructor clamps the delay to at least 3
seconds, and the floor holds START-TO-START and only for SEQUENTIAL calls:
for every sequence of non-overlapping `FetchStock` calls on one scraper no
two upstream requests are issued closer together than the clamped delay, the
gap measured from the issue time of one request to the issue time of the
next (not from the end of the previous request).  Across concurrent callers
the floor fails: the mutex is released during the floor sleep and the
elapsed time is not re-checked, so a second caller arriving before the
first's issue time reads the stale `lastRequest` and issues at the SAME
instant (gap 0), while only a second caller arriving at or after the first's
issue time is spaced by at least the clamped delay. -/
theorem c1_floor_start_to_start :
    (∀ d, 3 ≤ clampDelay d) ∧
    (∀ d l ts, List.Chain' (fun a b => clampDelay d ≤ b - a)
      (startTimes (clampDelay d) l ts)) ∧
    (∀ d l0 t1 t2, t1 ≤ t2 →
      (t2 < (twoCallerIssues (clampDelay d) l0 t1 t2).1 →
        (twoCallerIssues (clampDelay d) l0 t1 t2).2
          = (twoCallerIssues (clampDelay d) l0 t1 t2).1) ∧
      ((twoCallerIssues (clampDelay d) l0 t1 t2).1 ≤ t2 →
        clampDelay d ≤ (twoCallerIssues (clampDelay d) l0 t1 t2).2
          - (twoCallerIssues (clampDelay d) l0 t1 t2).1)) := by
  refine ⟨?_, ?_, ?_⟩
  · intro d
    unfold clampDelay
    split
    · exact le_refl 3
    · next h => exact not_lt.mp h
  · intro d l ts
    generalize clampDelay d = delay
    induction ts generalizing l with
    | nil => exact List.chain'_nil
    | cons t ts2 ih =>
      show List.Chain' _ (floorGate delay l t :: startTimes delay (floorGate delay l t) ts2)
      rw [List.chain'_cons']
      refine ⟨?_, ih (floorGate delay l t)⟩
      intro b hb
      match ts2, hb with
      | t2 :: ts3, hb =>
        simp only [startTimes, List.head?_cons, Option.mem_def, Option.some.injEq] at hb
        subst hb
        have h := floorGate_ge delay (floorGate delay l t) t2
        linarith
  · intro d l0 t1 t2 h12
    have h1 : (twoCallerIssues (clampDelay d) l0 t1 t2).1
        = floorGate (clampDelay d) l0 t1 := rfl
    constructor
    · intro hlt
      rw [h1] at hlt
      show (if t2 < floorGate (clampDelay d) l0 t1 then floorGate (clampDelay d) l0 t2
            else floorGate (clampDelay d) (floorGate (clampDelay d) l0 t1) t2)
          = (twoCallerIssues (clampDelay d) l0 t1 t2).1
      rw [h1, if_pos hlt]
      exact floorGate_stale h12 hlt
    · intro hge
      rw [h1] at hge
      show clampDelay d ≤
          (if t2 < floorGate (clampDelay d) l0 t1 then floorGate (clampDelay d) l0 t2
           else floorGate (clampDelay d) (floorGate (clampDelay d) l0 t1) t2)
          - (twoCallerIssues (clampDelay d) l0 t1 t2).1
      rw [h1, if_neg (not_lt.mpr hge)]
      exact floorGate_ge _ _ _

/-- Witness for the amended C1 theorem: with delay 3, `lastRequest = 0`, a
first caller at t = 1 (issuing at 3) and a second caller at t = 5 — after
the first's issue — the second is spaced by at least the clamped delay. -/
theorem c1_witness :
    (1:ℚ) ≤ 5 ∧ (twoCallerIssues (clampDelay 3) 0 1 5).1 ≤ 5 ∧
    clampDelay 3 ≤ (twoCallerIssues (clampDelay 3) 0 1 5).2
      - (twoCallerIssues (clampDelay 3) 0 1 5).1 := by
  have h12 : (1:ℚ) ≤ 5 := by norm_num
  have hs : (twoCallerIssues (clampDelay 3) 0 1 5).1 ≤ 5 := by decide
  exact ⟨h12, hs, (c1_floor_start_to_start.2.2 3 0 1 5 h12).2 hs⟩

/-- Reducible max (the `select` returns at the later of the wait start and
the cancellation instant when the context is already done). -/
def qmax (a b : ℚ) : ℚ := if a ≤ b then b else a

theorem qmax_eq (a b : ℚ) : qmax a b = max a b := (max_def a b).symm

/-- One cancellable wait (`select { time.After(w), ctx.Done() }`) started at
time `t` for duration `w` with cancellation instant `c?`: either the timer
fires at `t + w` (`inl`), or the cancellation wins and the call returns at
`max c t`, strictly before the wait's natural end `t + w`
(`inr (returnTime, naturalEnd)`). -/
def waitOrCancel (t w : ℚ) (c? : Option ℚ) : Sum ℚ (ℚ × ℚ) :=
  match c? with
  | none => Sum.inl (qadd t w)
  | some c => if c < qadd t w then Sum.inr (qmax c t, qadd t w) else Sum.inl (qadd t w)

/-- The outcome of a timed `FetchStock` run: cancelled during a wait (with
the return time and that wait's natural end), an upstream-status error after
the listed attempt issue times, or success. -/
inductive FetchOut where
  | cancelled (retTime natEnd : ℚ)
  | fetchErr (status : ℕ) (attemptTimes : List ℚ)
  | ok (attemptTimes : List ℚ)
deriving DecidableEq

/-- The retry loop of `FetchStock` (`for attempt := 0; attempt < maxRetries`
with `maxRetries = 3`): `n` is the remaining iteration budget
(`3 - attempt`), `t` the current time, `acc` the attempt issue times so far,
`resp` the upstream status per attempt index.  On 429 the loop closes the
body, waits `(attempt+1) * 5` seconds (cancellable) and retries; any other
status breaks out, giving `ok` on 200 and a status error otherwise.  The
fuel-exhaustion case is reached only after a 429 on the final attempt (the
only branch that recurses), so the post-loop status check necessarily
reports 429 there. -/
def attemptLoop (resp : ℕ → ℕ) (c? : Option ℚ) : ℕ → ℕ → ℚ → List ℚ → FetchOut
  | 0, _, _, acc => FetchOut.fetchErr 429 acc
  | n + 1, attempt, t, acc =>
    let times := acc ++ [t]
    let st := resp attempt
    if st = 429 then
      match waitOrCancel t (qmul (qOfNat (attempt + 1)) 5) c? with
      | Sum.inr p => FetchOut.cancelled p.1 p.2
      | Sum.inl t2 => attemptLoop resp c? n (attempt + 1) t2 times
    else if st = 200 then FetchOut.ok times
    else FetchOut.fetchErr st times

/-- Timed model of one `FetchStock` call: the (cancellable) floor wait, then
the 3-attempt retry loop; HTTP requests themselves are instantaneous here
(their duration is irrelevant to C2's properties). -/
def fetchStockTimed (delay l t : ℚ) (resp : ℕ → ℕ) (c? : Option ℚ) : FetchOut :=
  if qsub t l < delay then
    match waitOrCancel t (qsub delay (qsub t l)) c? with
    | Sum.inr p => FetchOut.cancelled p.1 p.2
    | Sum.inl t2 => attemptLoop resp c? 3 0 t2 []
  else attemptLoop resp c? 3 0 t []

theorem waitOrCancel_none (t w : ℚ) : waitOrCancel t w none = Sum.inl (t + w) := by
  rw [waitOrCancel, qadd_eq]

theorem waitOrCancel_inr {t w c r ne : ℚ}
    (h : waitOrCancel t w (some c) = Sum.inr (r, ne)) :
    r = max c t ∧ ne = t + w ∧ c < t + w := by
  rw [waitOrCancel] at h
  split at h
  · next hc =>
    rw [qadd_eq] at hc
    rw [Sum.inr.injEq, Prod.mk.injEq, qmax_eq, qadd_eq] at h
    exact ⟨h.1.symm, h.2.symm, hc⟩
  · simp at h

theorem waitOrCancel_inl {t w c t2 : ℚ}
    (h : waitOrCancel t w (some c) = Sum.inl t2) :
    t2 = t + w ∧ t + w ≤ c := by
  rw [waitOrCancel] at h
  split at h
  · simp at h
  · next hc =>
    rw [qadd_eq] at hc
    rw [Sum.inl.injEq, qadd_eq] at h
    exact ⟨h.symm, not_lt.mp hc⟩

theorem attemptLoop_cancelled_lt {c : ℚ} (resp : ℕ → ℕ) :
    ∀ (n attempt : ℕ) (t : ℚ) (acc : List ℚ) (r ne : ℚ),
      attemptLoop resp (some c) n attempt t acc = FetchOut.cancelled r ne → r < ne := by
  intro n
  induction n with
  | zero =>
    intro attempt t acc r ne h
    simp [attemptLoop] at h
  | succ m ih =>
    intro attempt t acc r ne h
    unfold attemptLoop at h
    split at h
    · next p heq =>
      dsimp only at h
      split at h
      · obtain ⟨r2, ne2⟩ := p
        simp only [FetchOut.cancelled.injEq] at h
        obtain ⟨hr, hne⟩ := h
        obtain ⟨h1, h2, h3⟩ := waitOrCancel_inr heq
        subst hr
        subst hne
        rw [h1, h2]
        refine max_lt h3 ?_
        have hw5 : qmul (qOfNat (attempt + 1)) 5 = ((attempt + 1 : ℕ) : ℚ) * 5 := by
          rw [qmul_eq, qOfNat_eq]
        rw [hw5]
        have h5 : (0:ℚ) < ((attempt + 1 : ℕ) : ℚ) * 5 := by positivity
        linarith
      · split at h
        · simp at h
        · simp at h
    · next t2 heq =>
      dsimp only at h
      split at h
      · exact ih (attempt + 1) t2 (acc ++ [t]) r ne h
      · split at h
        · simp at h
        · simp at h


theorem attemptLoop_429_none (s : ℚ) :
    attemptLoop (fun _ => 429) none 3 0 s [] = FetchOut.fetchErr 429 [s, s + 5, s + 15] := by
  have w1 : qmul (qOfNat (0 + 1)) 5 = (5:ℚ) := by
    rw [qmul_eq, qOfNat_eq]
    norm_num
  have w2 : qmul (qOfNat (1 + 1)) 5 = (10:ℚ) := by
    rw [qmul_eq, qOfNat_eq]
    norm_num
  have w3 : qmul (qOfNat (2 + 1)) 5 = (15:ℚ) := by
    rw [qmul_eq, qOfNat_eq]
    norm_num
  simp only [attemptLoop, w1, w2, w3, waitOrCancel_none, List.nil_append,
    List.singleton_append]
  norm_num
  ring


theorem attemptLoop_429_cancel (s c : ℚ) (hc : c < s + 30) :
    ∃ r ne, attemptLoop (fun _ => 429) (some c) 3 0 s []
      = FetchOut.cancelled r ne := by
  have w1 : qmul (qOfNat (0 + 1)) 5 = (5:ℚ) := by
    rw [qmul_eq, qOfNat_eq]
    norm_num
  have w2 : qmul (qOfNat (1 + 1)) 5 = (10:ℚ) := by
    rw [qmul_eq, qOfNat_eq]
    norm_num
  have w3 : qmul (qOfNat (2 + 1)) 5 = (15:ℚ) := by
    rw [qmul_eq, qOfNat_eq]
    norm_num
  simp only [attemptLoop, w1, w2, w3, List.nil_append, List.singleton_append]
  rcases hw1 : waitOrCancel s 5 (some c) with t1 | p1
  · obtain ⟨ht1, hc1⟩ := waitOrCancel_inl hw1
    subst ht1
    rcases hw2 : waitOrCancel (s + 5) 10 (some c) with t2 | p2
    · obtain ⟨ht2, hc2⟩ := waitOrCancel_inl hw2
      subst ht2
      rcases hw3 : waitOrCancel (s + 5 + 10) 15 (some c) with t3 | p3
      · obtain ⟨ht3, hc3⟩ := waitOrCancel_inl hw3
        exfalso
        linarith
      · exact ⟨p3.1, p3.2, by simp [hw2, hw3]⟩
    · exact ⟨p2.1, p2.2, by simp [hw2]⟩
  · exact ⟨p1.1, p1.2, by simp⟩


theorem fetch429_noCancel (d l t : ℚ) :
    fetchStockTimed d l t (fun _ => 429) none
      = FetchOut.fetchErr 429
          [floorGate d l t, floorGate d l t + 5, floorGate d l t + 15] := by
  unfold fetchStockTimed floorGate
  by_cases h : qsub t l < d
  · simp only [if_pos h, waitOrCancel_none, attemptLoop_429_none]
    have he : t + qsub d (qsub t l) = qadd l d := by
      rw [qadd_eq, qsub_eq, qsub_eq]
      ring
    rw [he]
  · simp only [if_neg h, attemptLoop_429_none]

theorem fetch_cancelled_lt {d l t c r ne : ℚ} {resp : ℕ → ℕ}
    (h : fetchStockTimed d l t resp (some c) = FetchOut.cancelled r ne) : r < ne := by
  unfold fetchStockTimed at h
  split at h
  · next hfl =>
    split at h
    · next p heq =>
      obtain ⟨h1, h2, h3⟩ := waitOrCancel_inr heq
      rw [FetchOut.cancelled.injEq] at h
      obtain ⟨hr, hne⟩ := h
      subst hr
      subst hne
      rw [h1, h2]
      have hw : (0:ℚ) < qsub d (qsub t l) := by
        rw [qsub_eq] at hfl
        rw [qsub_eq, qsub_eq]
        linarith
      exact max_lt h3 (by linarith)
    · next t2 heq =>
      exact attemptLoop_cancelled_lt resp 3 0 t2 [] r ne h
  · exact attemptLoop_cancelled_lt resp 3 0 t [] r ne h

theorem fetch429_cancel (d l t c : ℚ) (hc : c < floorGate d l t + 30) :
    ∃ r ne, fetchStockTimed d l t (fun _ => 429) (some c)
      = FetchOut.cancelled r ne := by
  unfold fetchStockTimed
  unfold floorGate at hc
  by_cases h : qsub t l < d
  · rw [if_pos h] at hc
    rw [if_pos h]
    rcases hw : waitOrCancel t (qsub d (qsub t l)) (some c) with t2 | p
    · obtain ⟨ht2, hle⟩ := waitOrCancel_inl hw
      have hc2 : c < t2 + 30 := by
        rw [ht2]
        rw [qadd_eq] at hc
        have he : t + qsub d (qsub t l) = l + d := by
          rw [qsub_eq, qsub_eq]
          ring
        rw [he]
        linarith
      obtain ⟨r, ne, hrn⟩ := attemptLoop_429_cancel t2 c hc2
      refine ⟨r, ne, ?_⟩
      simp only [hw]
      exact hrn
    · exact ⟨p.1, p.2, by simp only [hw]⟩
  · rw [if_neg h] at hc
    rw [if_neg h]
    exact attemptLoop_429_cancel t c hc

/-- C2: against a persistently rate-limited upstream (every attempt answered
with HTTP 429), `FetchStock` issues exactly 3 request attempts — at the
floor-gated start `s`, then `s + 5` and `s + 15`, that is, waiting
`attempt * 5` seconds between successive attempts — and then fails with the
429 rate-limited error; every run that reports cancellation returned
strictly before the interrupted wait's natural end; and a cancellation
instant falling inside the fetch's backoff horizon (the gated start plus the
5+10+15-second waits) is indeed observed as a cancellation. -/
theorem c2_backoff_and_cancellation (d l t c : ℚ) (resp : ℕ → ℕ) :
    fetchStockTimed d l t (fun _ => 429) none
      = FetchOut.fetchErr 429
          [floorGate d l t, floorGate d l t + 5, floorGate d l t + 15] ∧
    (∀ r ne, fetchStockTimed d l t resp (some c) = FetchOut.cancelled r ne → r < ne) ∧
    (c < floorGate d l t + 30 →
      ∃ r ne, fetchStockTimed d l t (fun _ => 429) (some c)
        = FetchOut.cancelled r ne) :=
  ⟨fetch429_noCancel d l t,
   fun _ _ h => fetch_cancelled_lt h,
   fun hc => fetch429_cancel d l t c hc⟩

/-- C2 witness: delay 3, last request far in the past, call at `t = 0`
(so the gated start is 0), cancellation at `c = 7` — inside the first
backoff wait — is observed as a cancellation. -/
theorem c2_witness :
    (7:ℚ) < floorGate 3 (-100) 0 + 30 ∧
    ∃ r ne, fetchStockTimed 3 (-100) 0 (fun _ => 429) (some 7)
      = FetchOut.cancelled r ne := by
  have h7 : (7:ℚ) < floorGate 3 (-100) 0 + 30 := by
    rw [show floorGate 3 (-100) 0 = 0 from by decide]
    norm_num
  exact ⟨h7, (c2_backoff_and_cancellation 3 (-100) 0 7 (fun _ => 429)).2.2 h7⟩

end StockRec
